import Mathlib

/-!
# Verification of the bitsy/nettle hardware simulator

A shallow embedding of the data model and algorithms of the bitsy
repository (crates `bitsy` and `nettle`), together with theorems that
settle the frozen claims about its specification.

Conventions of the embedding:
* Rust `Path` (a dotted string of identifier segments) is modelled as the
  list of its segments. `BTreeMap`/`BTreeSet` iteration order is modelled
  by keeping lists sorted with respect to the segment-wise lexicographic
  order, which agrees with the byte order of the dotted string on
  identifier segments.
* Machine integers (`u64`) are modelled as `Nat`; masking (`% 2^w`) is
  written out where the source wraps.
* Fallible or panicking code returns `Option`/`Except`.
* Rust functions whose termination is not structural (the `driver_for`
  while-loop, the mutually recursive `poke`/`broadcast_update`) take an
  explicit fuel argument; exhausting the fuel returns `none`.
* Code of the repository that is referenced by `src/nettle/src/sim.rs`
  but whose defining file is absent from `src/` (the sim-side `Circuit`
  accessors, the nettle `Value` and the expression evaluator) is modelled
  from the spec; those definitions say so in their doc comment.
-/

namespace Bitsy

/-- A dotted path (`nettle::Path`), modelled as its list of segments. -/
abbrev Path := List String

/-- `Path::set()`: append the literal segment `set`. -/
def Path.pset (p : Path) : Path := p ++ ["set"]

/-- `Path::parent()`: drop the last segment. The source panics on a
single-segment path; the model returns the empty path, which never occurs
as a component path. -/
def Path.parent (p : Path) : Path := p.dropLast

/-- Lexicographic order on character lists (Rust's `String` ordering;
on UTF-8 data the scalar-value order agrees with the byte order). -/
def charListLt : List Char → List Char → Bool
  | [], [] => false
  | [], _ :: _ => true
  | _ :: _, [] => false
  | c :: cs, d :: ds => if c = d then charListLt cs ds else decide (c < d)

/-- Rust's `String` ordering. -/
def strLtB (a b : String) : Bool := charListLt a.data b.data

/-- Strict segment-wise lexicographic order on paths, mirroring the byte
order of the dotted strings used by `BTreeMap`/`BTreeSet`. -/
def pathLt : Path → Path → Bool
  | [], [] => false
  | [], _ :: _ => true
  | _ :: _, [] => false
  | a :: as, b :: bs => if a = b then pathLt as bs else strLtB a b

/-- Insert into a sorted duplicate-free list of paths (a `BTreeSet<Path>`). -/
def sortedInsert (p : Path) : List Path → List Path
  | [] => [p]
  | q :: rest => if p = q then q :: rest
      else if pathLt p q then p :: q :: rest
      else q :: sortedInsert p rest

/-- Sorted deduplication of a list of paths (collecting into a `BTreeSet`). -/
def sortedDedup (l : List Path) : List Path :=
  l.foldl (fun acc p => sortedInsert p acc) []

/-- Modelled from the spec: the nettle `Value` (its source file is absent
from `src/`), restricted to the constructors the claims need: `X`
(unknown) and fixed-width words. -/
inductive Value where
  | X : Value
  | word (val : Nat) (width : Nat) : Value
deriving DecidableEq, Repr

/-- Binary operators of the expression IR (`bitsy::expr::BinOp`). -/
inductive BinOp where
  | add | addCarry | sub | and | or | xor | eq | neq | lt
deriving DecidableEq, Repr

/-- The expression IR (`bitsy::expr::Expr`), restricted to the
constructors the claims need. Source-location and once-settable type-cell
metadata are omitted, as are the constructors (`Enum`, `Ctor`, `UnOp`,
`Cat`, `Sext`, `ToWord`, `Vec`, `IdxRange`, `Match`, `Hole` payload)
that no claim exercises; `Match` in particular is unimplemented
(`todo!()`) in the source `free_vars`. -/
inductive Expr where
  /-- `Expr::Reference(path)` -/
  | reference (p : Path) : Expr
  /-- `Expr::Net(net_id)`, used only inside the simulator -/
  | net (id : Nat) : Expr
  /-- `Expr::Word(optional_width, value)` -/
  | word (width : Option Nat) (val : Nat) : Expr
  /-- `Expr::Let(name, e, body)` -/
  | letE (name : String) (e b : Expr) : Expr
  /-- `Expr::BinOp(op, e1, e2)` -/
  | binop (op : BinOp) (e1 e2 : Expr) : Expr
  /-- `Expr::If(cond, e1, e2)` -/
  | ifE (c t f : Expr) : Expr
  /-- `Expr::Mux(cond, e1, e2)` -/
  | mux (c t f : Expr) : Expr
  /-- `Expr::Idx(e, i)` -/
  | idx (e : Expr) (i : Nat) : Expr
  /-- `Expr::Hole(name)` -/
  | hole : Expr
deriving DecidableEq, Repr

/-- `Expr::paths()`: collect every `Reference` path (including shadowed
ones), sorted and deduplicated. The source panics when the expression
contains a `Net` node; theorems that rely on `paths` carry the hypothesis
that the expression is net-free. -/
def Expr.pathsOf : Expr → List Path
  | .reference p => [p]
  | .net _ => []
  | .word _ _ => []
  | .letE _ e b => sortedDedup (e.pathsOf ++ b.pathsOf)
  | .binop _ e1 e2 => sortedDedup (e1.pathsOf ++ e2.pathsOf)
  | .ifE c t f => sortedDedup (c.pathsOf ++ t.pathsOf ++ f.pathsOf)
  | .mux c t f => sortedDedup (c.pathsOf ++ t.pathsOf ++ f.pathsOf)
  | .idx e _ => e.pathsOf
  | .hole => []

/-- Does the expression contain a `Net` node?  (`paths()` and
`references_to_nets()` panic on such expressions.) -/
def Expr.hasNet : Expr → Bool
  | .reference _ => false
  | .net _ => true
  | .word _ _ => false
  | .letE _ e b => e.hasNet || b.hasNet
  | .binop _ e1 e2 => e1.hasNet || e2.hasNet
  | .ifE c t f => c.hasNet || t.hasNet || f.hasNet
  | .mux c t f => c.hasNet || t.hasNet || f.hasNet
  | .idx e _ => e.hasNet
  | .hole => false

/-- Does the expression contain a `Let` binder? -/
def Expr.hasLet : Expr → Bool
  | .reference _ => false
  | .net _ => false
  | .word _ _ => false
  | .letE _ _ _ => true
  | .binop _ e1 e2 => e1.hasLet || e2.hasLet
  | .ifE c t f => c.hasLet || t.hasLet || f.hasLet
  | .mux c t f => c.hasLet || t.hasLet || f.hasLet
  | .idx e _ => e.hasLet
  | .hole => false

/-- `Expr::free_vars()`: the referenced paths minus let-bound names
(a let-bound name shadows the single-segment path of that name). -/
def Expr.freeVars : Expr → List Path
  | .reference p => [p]
  | .net _ => []
  | .word _ _ => []
  | .letE x e b => sortedDedup ((b.freeVars.filter (· ≠ [x])) ++ e.freeVars)
  | .binop _ e1 e2 => sortedDedup (e1.freeVars ++ e2.freeVars)
  | .ifE c t f => sortedDedup (c.freeVars ++ t.freeVars ++ f.freeVars)
  | .mux c t f => sortedDedup (c.freeVars ++ t.freeVars ++ f.freeVars)
  | .idx e _ => e.freeVars
  | .hole => []

/-- `Expr::is_constant()`: no free variables. -/
def Expr.isConstant (e : Expr) : Bool := e.freeVars.isEmpty

/-- `Expr::depends_on(path)`: the path occurs among `paths()`. -/
def Expr.dependsOn (e : Expr) (p : Path) : Bool := e.pathsOf.contains p

/-- Wire kinds (`WireType`): `Connect` drives the target itself, `Latch`
drives `target.set()`. -/
inductive WireType where
  | connect | latch
deriving DecidableEq, Repr

/-- A wire `(target, expr, wire_type)` (`nettle::Wire`). -/
structure Wire where
  target : Path
  expr : Expr
  kind : WireType
deriving DecidableEq, Repr

/-- The effective target terminal of a wire: the target itself for
`Connect`, `target.set()` for `Latch` (`sim.rs`, the `match wire_type`
in `nets`, `broadcast_update` and `broadcast_update_constants`). -/
def effTarget (target : Path) : WireType → Path
  | .connect => target
  | .latch => target.pset

/-- Modelled from the spec: the circuit data read by `Sim::new`
(`terminals()`, `wires()`, `regs()`); the file defining this version of
`Circuit` is absent from `src/`. Per the spec, a `Reg` contributes the
register path itself (its aliased `.val`) and its `.set` child as
terminals. `wires` is listed in `BTreeMap`-by-target order and `regs` in
`BTreeSet` order. Register reset values are omitted (no claim exercises
`reset()`). -/
structure Circuit where
  terminals : List Path
  wires : List Wire
  regs : List Path

/-- Fallible map over a list (`Option` monad), written out so that its
equations unfold. -/
def listMapOption {α β : Type} (f : α → Option β) : List α → Option (List β)
  | [] => some []
  | x :: xs =>
      match f x with
      | none => none
      | some y => (listMapOption f xs).map (y :: ·)

/-- Fallible left fold over a list (`Option` monad). -/
def foldlMO {σ α : Type} (f : σ → α → Option σ) : σ → List α → Option σ
  | s, [] => some s
  | s, x :: xs =>
      match f s x with
      | none => none
      | some s2 => foldlMO f s2 xs

/-- Fallible map over a list (`Except` monad). -/
def mapME {ε α β : Type} (f : α → Except ε β) : List α → Except ε (List β)
  | [] => pure []
  | x :: xs =>
      match f x with
      | .error e => .error e
      | .ok y =>
          match mapME f xs with
          | .error e => .error e
          | .ok ys => .ok (y :: ys)

/-- Fallible left fold over a list (`Except` monad). -/
def foldlME {ε σ α : Type} (f : σ → α → Except ε σ) : σ → List α → Except ε σ
  | s, [] => pure s
  | s, x :: xs =>
      match f s x with
      | .error e => .error e
      | .ok s2 => foldlME f s2 xs

/-- Association-list lookup (`BTreeMap::get`). -/
def assocLookup {α : Type} [DecidableEq α] {β : Type} : List (α × β) → α → Option β
  | [], _ => none
  | (k2, v) :: rest, k => if k = k2 then some v else assocLookup rest k

/-- Association-list insert with replacement (`BTreeMap::insert`). -/
def assocInsert {α : Type} [DecidableEq α] {β : Type} (k : α) (v : β) : List (α × β) → List (α × β)
  | [] => [(k, v)]
  | (k2, v2) :: rest => if k = k2 then (k, v) :: rest else (k2, v2) :: assocInsert k v rest

/-- The `immediate_driver_for` map of `nets` (`sim.rs:250-261`): for every
wire whose expression is a bare `Reference(driver)`, map the wire's
effective target terminal to `driver`. -/
def immediateDriverFor (wires : List Wire) : List (Path × Path) :=
  wires.foldl (fun m w =>
    match w.expr with
    | .reference driver => assocInsert (effTarget w.target w.kind) driver m
    | _ => m) []

/-- `driver_for` (`sim.rs:283-289`): follow `immediate_driver_for` until a
path with no out-edge. The source's `while` loop diverges on cycles; the
model returns `none` when the fuel is exhausted. -/
def driverForFuel (m : List (Path × Path)) : Path → Nat → Option Path
  | p, 0 => match assocLookup m p with
      | none => some p
      | some _ => none
  | p, fuel + 1 => match assocLookup m p with
      | none => some p
      | some q => driverForFuel m q fuel

/-- A net `Net(driver, drivees)` (`sim.rs:329-330`). -/
structure Net where
  driver : Path
  drivees : List Path
deriving DecidableEq, Repr

/-- `Net::contains` (`sim.rs:320-326`). -/
def Net.containsT (n : Net) (t : Path) : Bool :=
  t = n.driver || n.drivees.contains t

/-- `Net::add` (`sim.rs:296-302`): add a terminal to the drivees unless it
is the driver; the drivee list is kept sorted and deduplicated. -/
def Net.add (n : Net) (t : Path) : Net :=
  if t = n.driver then n else { n with drivees := sortedInsert t n.drivees }

/-- `nets` (`sim.rs:250-281`): build the immediate-driver map, collect the
set of drivers of all terminals, allocate one net per driver (in sorted
driver order, matching the `BTreeMap<Path, Net>`), and add every terminal
to its driver's net. -/
def netsFuel (fuel : Nat) (c : Circuit) : Option (List Net) :=
  match listMapOption (fun t => driverForFuel (immediateDriverFor c.wires) t fuel) c.terminals with
  | none => none
  | some drivers =>
      foldlMO (fun nets t =>
          match driverForFuel (immediateDriverFor c.wires) t fuel with
          | none => none
          | some d => some (nets.map (fun n => if n.driver = d then n.add t else n)))
        ((sortedDedup drivers).map (fun d => Net.mk d []))
        c.terminals

/-- The simulator state (`Sim`, `sim.rs:8-19`). `net_values` is modelled
as a total function from net ids. The external-instance table is omitted:
`Sim::new` leaves it empty and no claim installs an external, so every
external branch of `broadcast_update`, `clock` and `reset` is vacuous.
The tick counter, wall-clock fields and frequency cap are not modelled. -/
structure Sim where
  nets : List Net
  terminals : List Path
  values : Nat → Value
  wires : List Wire
  regs : List Path

/-- The `net_id_by_path` map (`Sim::new`, `sim.rs:45-57`): for each
terminal, the index of the first (and, by the partition property, only)
net containing it; looking up a non-terminal panics in the source. -/
def Sim.netIdByPath (s : Sim) (p : Path) : Option Nat :=
  if p ∈ s.terminals then s.nets.findIdx? (fun n => n.containsT p) else none

/-- `Sim::peek` (`sim.rs:94-102`). -/
def Sim.peek (s : Sim) (p : Path) : Option Value :=
  (s.netIdByPath p).map s.values

/-- Write one net value (`net_values[net_id] = value`). -/
def Sim.pokeRaw (s : Sim) (i : Nat) (v : Value) : Sim :=
  { s with values := fun j => if j = i then v else s.values j }

/-- `Sim::is_reg` (`sim.rs:172-174`). -/
def Sim.isReg (s : Sim) (p : Path) : Bool :=
  s.regs.contains p.parent || s.regs.contains p

/-- Modelled from the spec (§4.7): the expression evaluator (the nettle
expression source file is absent from `src/`). `view` is the simulator;
`env` carries let-bindings, consulted before the net values for
`Reference`s (spec §4.7, `Let`). Width-annotated literals are masked to
their width; an unannotated literal has no runtime width and yields
`none`. `X` is infectious through the operators. -/
def applyBinOp : BinOp → Value → Value → Value
  | _, .X, _ => .X
  | _, _, .X => .X
  | .add, .word a w, .word b _ => .word ((a + b) % 2 ^ w) w
  | .addCarry, .word a w, .word b _ => .word ((a + b) % 2 ^ (w + 1)) (w + 1)
  | .sub, .word a w, .word b _ => .word ((a + 2 ^ w - b % 2 ^ w) % 2 ^ w) w
  | .and, .word a w, .word b _ => .word (a &&& b) w
  | .or, .word a w, .word b _ => .word (a ||| b) w
  | .xor, .word a w, .word b _ => .word (a ^^^ b) w
  | .eq, .word a _, .word b _ => .word (if a = b then 1 else 0) 1
  | .neq, .word a _, .word b _ => .word (if a = b then 0 else 1) 1
  | .lt, .word a _, .word b _ => .word (if a < b then 1 else 0) 1

/-- Modelled from the spec (§4.7): evaluation of an expression against the
simulator's net values and a let-binding environment. -/
def evalExpr (s : Sim) : List (Path × Value) → Expr → Option Value
  | env, .reference p =>
      match assocLookup env p with
      | some v => some v
      | none => s.peek p
  | _, .net n => some (s.values n)
  | _, .word (some w) v => some (.word (v % 2 ^ w) w)
  | _, .word none _ => none
  | env, .letE x e b => do
      let v ← evalExpr s env e
      evalExpr s (([x], v) :: env) b
  | env, .binop op e1 e2 => do
      let v1 ← evalExpr s env e1
      let v2 ← evalExpr s env e2
      pure (applyBinOp op v1 v2)
  | env, .ifE c t f => do
      let vc ← evalExpr s env c
      let vt ← evalExpr s env t
      let vf ← evalExpr s env f
      pure (match vc with
        | .X => .X
        | .word n _ => if n = 0 then vf else vt)
  | env, .mux c t f => do
      let vc ← evalExpr s env c
      let vt ← evalExpr s env t
      let vf ← evalExpr s env f
      pure (match vc with
        | .X => .X
        | .word n _ => if n = 0 then vf else vt)
  | env, .idx e i => do
      let v ← evalExpr s env e
      pure (match v with
        | .X => .X
        | .word n _ => .word ((n >>> i) % 2) 1)
  | _, .hole => some .X

/-- `Sim::poke` (`sim.rs:104-113`): write the path's net; if the path is
not a register (neither it nor its parent), run `broadcast_update`. The
mutual recursion between `poke` and `broadcast_update` is realized by
inlining the broadcast loop (see `broadcastFuel` below for the loop as a
stand-alone function and `pokeFuel_succ` for the connection), so that the
definition is structural in the fuel. A missing net id (a panic in the
source) or exhausted fuel yields `none`. -/
def pokeFuel : Nat → Sim → Path → Value → Option Sim
  | 0, _, _, _ => none
  | fuel + 1, s, p, v =>
      match s.netIdByPath p with
      | none => none
      | some i =>
          let s2 := s.pokeRaw i v
          if s2.isReg p then some s2
          else
            foldlMO (fun st w =>
              if w.expr.dependsOn p then
                match evalExpr st [] w.expr with
                | none => none
                | some val => pokeFuel fuel st (effTarget w.target w.kind) val
              else some st) s2 s2.wires

/-- `Sim::broadcast_update` (`sim.rs:137-170`): for every wire (in target
order) whose expression depends on the terminal, evaluate it against the
current state and poke the result into the wire's effective target. The
external-instance branch is vacuous (no externals are installed). -/
def broadcastFuel (fuel : Nat) (s : Sim) (terminal : Path) : Option Sim :=
  foldlMO (fun st w =>
    if w.expr.dependsOn terminal then
      match evalExpr st [] w.expr with
      | none => none
      | some val => pokeFuel fuel st (effTarget w.target w.kind) val
    else some st) s s.wires

/-- `Sim::broadcast_update_constants` (`sim.rs:123-135`): walk the wires
in target order; poke each constant wire's value into its effective
target. -/
def broadcastConstantsGo (fuel : Nat) : Sim → List Wire → Option Sim
  | s, [] => some s
  | s, w :: rest => do
      let s2 ←
        if w.expr.isConstant then do
          let v ← evalExpr s [] w.expr
          pokeFuel fuel s (effTarget w.target w.kind) v
        else pure s
      broadcastConstantsGo fuel s2 rest

/-- `Sim::new` (`sim.rs:22-73`): compute the nets, initialize every net
value to `X`, then run `broadcast_update_constants`. -/
def simNewFuel (fuel : Nat) (c : Circuit) : Option Sim :=
  match netsFuel fuel c with
  | none => none
  | some ns =>
      broadcastConstantsGo fuel
        { nets := ns
          terminals := c.terminals
          values := fun _ => .X
          wires := c.wires
          regs := c.regs }
        c.wires

/-- First phase of `Sim::clock` (`sim.rs:187-191`): for each register
path in order, read `peek(path.set())` and poke it into `path`. -/
def clockRegsStep (fuel : Nat) : Sim → List Path → Option Sim
  | s, [] => some s
  | s, p :: rest => do
      let v ← s.peek p.pset
      let s2 ← pokeFuel fuel s p v
      clockRegsStep fuel s2 rest

/-- Final phase of `Sim::clock` (`sim.rs:208-211`): `broadcast_update`
for every register path. -/
def clockRegsBroadcast (fuel : Nat) : Sim → List Path → Option Sim
  | s, [] => some s
  | s, p :: rest => do
      let s2 ← broadcastFuel fuel s p
      clockRegsBroadcast fuel s2 rest

/-- `Sim::clock` (`sim.rs:176-212`). The tick counter and optional
busy-wait frequency cap are wall-clock effects and not modelled; the
external-instance phase is vacuous (no externals installed). -/
def clockFuel (fuel : Nat) (s : Sim) : Option Sim :=
  match clockRegsStep fuel s s.regs with
  | none => none
  | some s1 => clockRegsBroadcast fuel s1 s1.regs

/-- `Expr::references_to_nets` (`expr.rs:464-548`): replace every
non-shadowed `Reference(path)` by `Net(net_id_by_path[path])`. A missing
map entry (a `BTreeMap`-indexing panic in the source) or an input already
containing a `Net` node (an explicit panic) yields `none`. `Let` shadows
the single-segment path of its bound name in the body. -/
def Expr.referencesToNets (m : List (Path × Nat)) : Expr → List Path → Option Expr
  | .reference p, shadowed =>
      if shadowed.contains p then some (.reference p)
      else (assocLookup m p).map .net
  | .net _, _ => none
  | .word w v, _ => some (.word w v)
  | .letE x e b, shadowed => do
      let e2 ← Expr.referencesToNets m e shadowed
      let b2 ← Expr.referencesToNets m b ([x] :: shadowed)
      pure (.letE x e2 b2)
  | .binop op e1 e2, sh => do
      let r1 ← Expr.referencesToNets m e1 sh
      let r2 ← Expr.referencesToNets m e2 sh
      pure (.binop op r1 r2)
  | .ifE c t f, sh => do
      let rc ← Expr.referencesToNets m c sh
      let rt ← Expr.referencesToNets m t sh
      let rf ← Expr.referencesToNets m f sh
      pure (.ifE rc rt rf)
  | .mux c t f, sh => do
      let rc ← Expr.referencesToNets m c sh
      let rt ← Expr.referencesToNets m t sh
      let rf ← Expr.referencesToNets m f sh
      pure (.mux rc rt rf)
  | .idx e i, sh => do
      let r ← Expr.referencesToNets m e sh
      pure (.idx r i)
  | .hole, _ => some .hole

/-- The `Net` ids occurring in an expression (the ids the round-trip of
claim C5 maps back through `drivers`). -/
def Expr.netIds : Expr → List Nat
  | .reference _ => []
  | .net n => [n]
  | .word _ _ => []
  | .letE _ e b => e.netIds ++ b.netIds
  | .binop _ e1 e2 => e1.netIds ++ e2.netIds
  | .ifE c t f => c.netIds ++ t.netIds ++ f.netIds
  | .mux c t f => c.netIds ++ t.netIds ++ f.netIds
  | .idx e _ => e.netIds
  | .hole => []

/-! ## The resolver (`bitsy::package::resolve`)

The `ast` module consumed by `resolve.rs` is absent from `src/`; the
shapes below are exactly the constructors that `resolve.rs` pattern
matches. `BTreeSet<String>` results are modelled as lists compared up to
membership. -/

/-- AST types (`ast::Type`), as matched by `resolve.rs:233-240`. -/
inductive AstType where
  | word (n : Nat)
  | vec (t : AstType) (n : Nat)
  | valid (t : AstType)
  | typeRef (r : String)
deriving DecidableEq, Repr

/-- `type_dependencies` (`resolve.rs:233-240`). -/
def typeDependencies : AstType → List String
  | .word _ => []
  | .vec t _ => typeDependencies t
  | .valid t => typeDependencies t
  | .typeRef r => [r]

/-- Unary operators (`UnOp`, `expr.rs:162-165`). -/
inductive UnOp where
  | not
deriving DecidableEq, Repr

/-- Match patterns (`Pat`, `expr.rs:56-61`). -/
inductive Pat where
  | atP (name : String) (pats : List Pat)
  | bind (x : String)
  | otherwise

mutual

/-- Modelled from the spec (§9): `Pat::bound_vars` (absent from `src/`) —
the names bound by a pattern: a binder binds its name, an `@`-constructor
binds the variables of its sub-patterns, `otherwise` binds nothing. -/
def patBoundVars : Pat → List String
  | .atP _ pats => patListBoundVars pats
  | .bind x => [x]
  | .otherwise => []

def patListBoundVars : List Pat → List String
  | [] => []
  | p :: rest => patBoundVars p ++ patListBoundVars rest

end

/-- AST expressions (`ast::Expr`), as matched by
`expr_dependencies` and `resolve_expr` (`resolve.rs`). -/
inductive AstExpr where
  | ident (x : String)
  | dot (e : AstExpr) (x : String)
  | word (w : Option Nat) (v : Nat)
  | enum (t : AstType) (value : String)
  | structE (fields : List (String × AstExpr))
  | vec (es : List AstExpr)
  | call (func : String) (es : List AstExpr)
  | letE (x : String) (ascription : Option AstType) (e b : AstExpr)
  | unop (op : UnOp) (e : AstExpr)
  | binop (op : BinOp) (e1 e2 : AstExpr)
  | ifE (c e1 e2 : AstExpr)
  | matchE (e : AstExpr) (arms : List (Pat × AstExpr))
  | idxField (e : AstExpr) (field : String)
  | idx (e : AstExpr) (i : Nat)
  | idxRange (e : AstExpr) (j i : Nat)
  | hole (name : Option String)

/-- Rust `str::starts_with`, over the character data. -/
def strStartsWith (s pre : String) : Bool := pre.data.isPrefixOf s.data

/-- The `SPECIALS` constant of the `Call` arm of `expr_dependencies`
(`resolve.rs:264-273`). -/
def SPECIALS : List String :=
  ["cat", "mux", "sext", "zext", "trycast", "word", "@Valid", "@Invalid"]

mutual

/-- `expr_dependencies` (`resolve.rs:242-325`): the free item names of an
AST expression, given the set of shadowed names. The `Call` arm includes
the callee unless it is a `SPECIALS` entry or starts with `@`; argument
dependencies are always collected. `Struct` fields are ignored by the
source. -/
def exprDependencies : AstExpr → List String → List String
  | .ident x, sh => if sh.contains x then [] else [x]
  | .dot e _, sh => exprDependencies e sh
  | .word _ _, _ => []
  | .enum t _, _ => typeDependencies t
  | .structE _, _ => []
  | .vec es, sh => exprDepsList es sh
  | .call func es, sh =>
      (if !SPECIALS.contains func && !strStartsWith func "@" then [func] else [])
        ++ exprDepsList es sh
  | .letE x asc e b, sh =>
      (match asc with
        | some t => typeDependencies t
        | none => [])
        ++ exprDependencies e sh ++ exprDependencies b (x :: sh)
  | .unop _ e, sh => exprDependencies e sh
  | .binop _ e1 e2, sh => exprDependencies e1 sh ++ exprDependencies e2 sh
  | .ifE c e1 e2, sh =>
      exprDependencies c sh ++ exprDependencies e1 sh ++ exprDependencies e2 sh
  | .matchE e arms, sh => exprDependencies e sh ++ armsDeps arms sh
  | .idxField e _, sh => exprDependencies e sh
  | .idx e _, sh => exprDependencies e sh
  | .idxRange e _ _, sh => exprDependencies e sh
  | .hole _, _ => []

def exprDepsList : List AstExpr → List String → List String
  | [], _ => []
  | e :: rest, sh => exprDependencies e sh ++ exprDepsList rest sh

def armsDeps : List (Pat × AstExpr) → List String → List String
  | [], _ => []
  | (pat, e) :: rest, sh =>
      exprDependencies e (patBoundVars pat ++ sh) ++ armsDeps rest sh

end

/-- A word literal `WordLit(Option<Width>, u64)` (`types.rs:52`). -/
structure WordLit where
  width : Option Nat
  val : Nat
deriving DecidableEq, Repr

/-- AST items (`ast::Item`), restricted to the type-definition kinds the
claims need (module, external and function definitions are omitted). -/
inductive AstItem where
  | enumTypeDef (name : String) (values : List (String × WordLit))
  | structTypeDef (name : String) (fields : List (String × AstType))
deriving DecidableEq, Repr

def AstItem.name : AstItem → String
  | .enumTypeDef n _ => n
  | .structTypeDef n _ => n

/-- `item_dependencies` (`resolve.rs:111-120`, with
`structtypedef_dependencies`, `resolve.rs:200-207`). -/
def itemDependencies : AstItem → List String
  | .enumTypeDef _ _ => []
  | .structTypeDef _ fields =>
      fields.foldl (fun acc f => acc ++ typeDependencies f.2) []

/-- Resolved types (`bitsy::types::Type`), restricted to the kinds
reachable from the embedded items. -/
inductive RType where
  | word (n : Nat)
  | vec (t : RType) (n : Nat)
  | valid (t : RType)
  | enum (name : String) (values : List (String × WordLit))
  | structT (name : String) (fields : List (String × RType))

/-- Resolved items (`package::Item`), restricted as above. -/
inductive RItem where
  | enumTypeDef (name : String) (values : List (String × WordLit))
  | structTypeDef (name : String) (fields : List (String × RType))

def RItem.name : RItem → String
  | .enumTypeDef n _ => n
  | .structTypeDef n _ => n

/-- `Item::as_type` for the embedded kinds. -/
def RItem.asType : RItem → RType
  | .enumTypeDef n vs => .enum n vs
  | .structTypeDef n fs => .structT n fs

/-- Insert into a string-keyed association list kept sorted by key,
replacing an existing entry (`BTreeMap<String, _>::insert`). -/
def strAssocInsert {β : Type} (k : String) (v : β) : List (String × β) → List (String × β)
  | [] => [(k, v)]
  | (k2, v2) :: rest =>
      if k = k2 then (k, v) :: rest
      else if strLtB k k2 then (k, v) :: (k2, v2) :: rest
      else (k2, v2) :: strAssocInsert k v rest

/-- `resolve_type` (`resolve.rs:327-334`); the `TypeRef` arm's failed
context lookup is a panic (`.expect`), modelled as `none`. -/
def resolveType (ctx : List (String × RType)) : AstType → Option RType
  | .word n => some (.word n)
  | .vec t n => (resolveType ctx t).map (fun r => .vec r n)
  | .valid t => (resolveType ctx t).map .valid
  | .typeRef r => assocLookup ctx r

/-- `resolve_item` (`resolve.rs:53-109`) for the embedded item kinds:
enum typedefs are copied; struct typedefs resolve each field type against
the context of previously resolved typedefs, collecting the fields into a
name-sorted map (`resolve_struct_typedef`, `resolve.rs:336-350`). -/
def resolveItem (item : AstItem) (resolved : List (String × RItem)) : Option RItem :=
  let userTypes : List (String × RType) := resolved.map (fun x => (x.1, x.2.asType))
  match item with
  | .enumTypeDef n vs => some (.enumTypeDef n vs)
  | .structTypeDef n fields =>
      match foldlMO (fun acc f =>
          match resolveType userTypes f.2 with
          | none => none
          | some r => some (strAssocInsert f.1 r acc)) [] fields with
      | none => none
      | some rfields => some (.structTypeDef n rfields)

/-- Errors surfaced by `resolve`: a dependency name that is not an item
(a `panic!` at `resolve.rs:36`), a cyclic item graph (the `toposort`
`unwrap` at `resolve.rs:41`), and a panic inside `resolve_item`. There is
no error for duplicate item names. -/
inductive ResolveErr where
  | depNotFound (name : String)
  | cycleDetected
  | itemResolveFailed (name : String)
deriving DecidableEq, Repr

/-- Kahn's algorithm for `petgraph::algo::toposort`: repeatedly emit the
lowest-index remaining node with no incoming edge from a remaining node
(every edge source precedes its target, as `toposort` guarantees; the
tie-break among ready nodes is unspecified in `petgraph` and fixed here).
A cycle leaves no ready node and is an error. -/
def toposortGo (edges : List (Nat × Nat)) : Nat → List Nat → Except ResolveErr (List Nat)
  | _, [] => pure []
  | 0, _ :: _ => throw .cycleDetected
  | fuel + 1, remaining =>
      match remaining.find? (fun n => !(edges.any (fun e => e.2 == n && remaining.contains e.1))) with
      | none => throw .cycleDetected
      | some n => do
          let rest ← toposortGo edges fuel (remaining.erase n)
          pure (n :: rest)

/-- `order_items` (`resolve.rs:14-51`): one graph node per item in
package order; a name-keyed map records the (node, item) pair per name,
later items replacing earlier ones with the same name. Edges run from an
item's recorded node to each dependency's recorded node. The topological
order is reversed, and each node is mapped back through its name to the
recorded item. -/
def orderItems (pkg : List AstItem) : Except ResolveErr (List AstItem) :=
  let nameMap : List (String × (Nat × AstItem)) :=
    pkg.enum.foldl (fun m x => strAssocInsert x.2.name (x.1, x.2) m) []
  match (foldlME (fun acc it =>
      match assocLookup nameMap it.name with
      | none => throw (.depNotFound it.name)
      | some nodeRec =>
          foldlME (fun acc2 dep =>
            match assocLookup nameMap dep with
            | some depRec => pure (acc2 ++ [(nodeRec.1, depRec.1)])
            | none => throw (.depNotFound dep)) acc (itemDependencies it))
      ([] : List (Nat × Nat)) pkg : Except ResolveErr (List (Nat × Nat))) with
  | .error e => .error e
  | .ok edges =>
      match toposortGo edges (pkg.length + 1) (List.range pkg.length) with
      | .error e => .error e
      | .ok sorted =>
          mapME (fun node =>
            match pkg.get? node with
            | none => throw .cycleDetected
            | some it =>
                match assocLookup nameMap it.name with
                | some rec2 => pure rec2.2
                | none => throw (.depNotFound it.name)) sorted.reverse

/-- `resolve` (`resolve.rs:4-12`): resolve the ordered items one by one,
inserting each into a name-keyed map — an item with a repeated name
silently replaces the previous one — and return the map's values. -/
def resolvePkg (pkg : List AstItem) : Except ResolveErr (List RItem) :=
  match orderItems pkg with
  | .error e => .error e
  | .ok ordered =>
      match foldlME (fun m it =>
          match resolveItem it m with
          | some r => pure (strAssocInsert r.name r m)
          | none => throw (.itemResolveFailed it.name)) ([] : List (String × RItem)) ordered with
      | .error e => .error e
      | .ok finalMap => .ok (finalMap.map Prod.snd)

/-! ## The typechecker (`bitsy::expr::typecheck`) -/

/-- The typechecker's `Type` (`types.rs:14-28`), restricted to `Word`. -/
inductive TType where
  | word (n : Nat)
deriving DecidableEq, Repr

/-- Type errors (`TypeError`), as produced by the embedded arms. -/
inductive TypeErr where
  | undefinedReference
  | notExpectedType (expected actual : TType)
  | otherErr (msg : String)
deriving DecidableEq, Repr

/-- The typechecker's expressions, restricted to the arms claim C9
exercises: references and word literals (`typecheck.rs`). -/
inductive TExpr where
  | reference (p : Path)
  | word (width : Option Nat) (val : Nat)
deriving DecidableEq, Repr

/-- The `u64` right shift `n >> w` of the `Word` arms (`typecheck.rs:21,
27,169`; both operands are `u64` — `Width = u64`, `types.rs:8`). A shift
by `w ≥ 64` is an arithmetic overflow in Rust: a panic in debug profiles,
a shift by the masked amount `w % 64` in release profiles. The release
behavior — the total function the compiled program computes — is
modelled; the left operand is reduced modulo `2^64` as a `u64` value
is. -/
def u64Shr (n w : Nat) : Nat := (n % 2 ^ 64) >>> (w % 64)

/-- `Expr::typeinfer` (`typecheck.rs:161-224`), for the embedded arms:
a reference infers its context type; `Word(None, n)` is not inferrable;
`Word(Some(w), n)` infers `Word<w>` when `n >> w == 0` — the `u64` shift
`u64Shr`. The type-cell write is metadata and omitted. -/
def typeinfer (ctx : List (Path × TType)) : TExpr → Option TType
  | .reference p => assocLookup ctx p
  | .word none _ => none
  | .word (some w) n => if u64Shr n w = 0 then some (.word w) else none

/-- `Expr::typecheck` (`typecheck.rs:6-158`), for the embedded arms:
first try `typeinfer` and compare with the expected type; otherwise
dispatch on (expected, expr) exactly as the source `match` does, with
the `u64` shift `u64Shr` in the `Word` fit tests. -/
def typecheck (ctx : List (Path × TType)) (e : TExpr) (expected : TType) : Except TypeErr Unit :=
  match typeinfer ctx e with
  | some actual =>
      if actual = expected then .ok () else .error (.notExpectedType expected actual)
  | none =>
      match expected, e with
      | _, .reference _ => .error .undefinedReference
      | .word wExpected, .word (some wActual) n =>
          if wActual = wExpected then .error (.otherErr "Not the expected width")
          else if u64Shr n wActual ≠ 0 then .error (.otherErr "Doesn't fit")
          else .ok ()
      | .word wExpected, .word none n =>
          if u64Shr n wExpected ≠ 0 then .error (.otherErr "Doesn't fit")
          else .ok ()

/-! ## The elaborated circuit (`nettle::circuit`) -/

/-- Elaborated-circuit component kinds (`circuit.rs:3-11`); the type and
reset-value payloads are omitted (`terminals` ignores them). -/
inductive NComponent where
  | incoming | outgoing | node | reg | modC | ext
deriving DecidableEq, Repr, Inhabited

/-- `Circuit::terminals` (`circuit.rs:53-72`): walk the component map and
emit `{path}.val` for `Incoming`, `{path}.set` for `Outgoing`, both for
`Node` and `Reg`, nothing for `Mod` and `Ext`. -/
def terminalsOf (components : List (Path × NComponent)) : List Path :=
  components.foldl (fun acc x =>
    acc ++ match x.2 with
      | .incoming => [x.1 ++ ["val"]]
      | .outgoing => [x.1 ++ ["set"]]
      | .node => [x.1 ++ ["val"], x.1 ++ ["set"]]
      | .reg => [x.1 ++ ["val"], x.1 ++ ["set"]]
      | .modC => []
      | .ext => []) []

/-- The terminals contributed by one component, as claim C10 spells them
out (the body of the `match` inside `Circuit::terminals`). -/
def kindTerminals (p : Path) : NComponent → List Path
  | .incoming => [p ++ ["val"]]
  | .outgoing => [p ++ ["set"]]
  | .node => [p ++ ["val"], p ++ ["set"]]
  | .reg => [p ++ ["val"], p ++ ["set"]]
  | .modC => []
  | .ext => []

/-! ## Auxiliary definitions and concrete fixtures used by the theorems -/

/-- Evaluation of a closed (constant) expression against no nets: the
`eval(rhs, {})` of the constant-propagation property. -/
def evalClosed (e : Expr) : Option Value :=
  evalExpr { nets := [], terminals := [], values := fun _ => .X, wires := [], regs := [] } [] e

/-- Two simulator states with the same nets, terminals, wires and
registers (they may differ only in the net values). -/
def SameShape (s1 s2 : Sim) : Prop :=
  s1.nets = s2.nets ∧ s1.terminals = s2.terminals ∧ s1.wires = s2.wires ∧ s1.regs = s2.regs

/-- Net inference terminates on a circuit: some fuel suffices. -/
def netsTerminates (c : Circuit) : Prop := ∃ fuel, (netsFuel fuel c).isSome

/-- C1 counterexample fixture: registers `top.a` and `top.b` with the
latched register chain `b <= a` (wire target `top.b`, expression
`Reference(top.a)`, kind `Latch`). -/
def c1cexCircuit : Circuit :=
  { terminals := [["top", "a"], ["top", "a", "set"], ["top", "b"], ["top", "b", "set"]]
    wires := [⟨["top", "b"], .reference ["top", "a"], .latch⟩]
    regs := [["top", "a"], ["top", "b"]] }

/-- C1 witness fixture: a single register `top.r` with no wires. -/
def c1wSim : Sim :=
  { nets := [⟨["top", "r"], []⟩, ⟨["top", "r", "set"], []⟩]
    terminals := [["top", "r"], ["top", "r", "set"]]
    values := fun _ => .X
    wires := []
    regs := [["top", "r"]] }

/-- C2 witness fixture: node-like terminals `top.a`, `top.b` with the
direct reference wire `b := a`. -/
def c2wCircuit : Circuit :=
  { terminals := [["top", "a"], ["top", "b"]]
    wires := [⟨["top", "b"], .reference ["top", "a"], .connect⟩]
    regs := [] }

/-- C3 counterexample fixture: the constant wire `a := 5w4` next to the
combinational wire `b := a + 1w4`. -/
def c3cexCircuit : Circuit :=
  { terminals := [["top", "a"], ["top", "b"]]
    wires := [⟨["top", "a"], .word (some 4) 5, .connect⟩,
              ⟨["top", "b"], .binop .add (.reference ["top", "a"]) (.word (some 4) 1), .connect⟩]
    regs := [] }

/-- C3 witness fixture: a single constant wire `a := 5w4` and an
untouched terminal `top.b`. -/
def c3wCircuit : Circuit :=
  { terminals := [["top", "a"], ["top", "b"]]
    wires := [⟨["top", "a"], .word (some 4) 5, .connect⟩]
    regs := [] }

/-- C3 witness fixture: the simulator state `Sim::new` produces for
`c3wCircuit` (net 0 is `top.a`, net 1 is `top.b`; the constant wire has
been applied to net 0). -/
def c3wSimOut : Sim :=
  { nets := [⟨["top", "a"], []⟩, ⟨["top", "b"], []⟩]
    terminals := [["top", "a"], ["top", "b"]]
    values := fun j => if j = 0 then .word 5 4 else .X
    wires := [⟨["top", "a"], .word (some 4) 5, .connect⟩]
    regs := [] }

/-- C4 fixture: a single register `top.r` with no wires. -/
def c4wSim : Sim :=
  { nets := [⟨["top", "r"], []⟩, ⟨["top", "r", "set"], []⟩]
    terminals := [["top", "r"], ["top", "r", "set"]]
    values := fun _ => .X
    wires := []
    regs := [["top", "r"]] }

/-- C5 counterexample fixture: terminals `top.a`, `top.b` with the direct
reference wire `b := a`, so that `top.b` is a drivee of `top.a`'s net. -/
def c5cexCircuit : Circuit :=
  { terminals := [["top", "a"], ["top", "b"]]
    wires := [⟨["top", "b"], .reference ["top", "a"], .connect⟩]
    regs := [] }

/-- C6 fixture: a two-cycle of direct reference wires
(`a := b` and `b := a`). -/
def c6cexCircuit : Circuit :=
  { terminals := [["top", "a"], ["top", "b"]]
    wires := [⟨["top", "a"], .reference ["top", "b"], .connect⟩,
              ⟨["top", "b"], .reference ["top", "a"], .connect⟩]
    regs := [] }

/-- C7 counterexample fixture: two top-level enum items with the same
name `A` and different bodies. -/
def c7dupPkg : List AstItem :=
  [.enumTypeDef "A" [("x", ⟨some 1, 0⟩)],
   .enumTypeDef "A" [("y", ⟨some 1, 1⟩)]]

/-! ## Helper lemmas -/

theorem mem_sortedInsert {q p : Path} {l : List Path} :
    q ∈ sortedInsert p l ↔ q = p ∨ q ∈ l := by
  induction l with
  | nil => simp [sortedInsert]
  | cons x xs ih =>
      rw [sortedInsert]
      by_cases h1 : p = x
      · subst h1
        rw [if_pos rfl]
        simp [List.mem_cons]
      · rw [if_neg h1]
        by_cases h2 : pathLt p x = true
        · rw [if_pos h2]
          simp [List.mem_cons]
        · rw [if_neg h2]
          simp only [List.mem_cons, ih]
          tauto

theorem mem_sortedDedup {q : Path} {l : List Path} :
    q ∈ sortedDedup l ↔ q ∈ l := by
  have aux : ∀ (l : List Path) (acc : List Path),
      q ∈ l.foldl (fun acc p => sortedInsert p acc) acc ↔ q ∈ acc ∨ q ∈ l := by
    intro l
    induction l with
    | nil => intro acc; simp
    | cons x xs ih =>
        intro acc
        simp only [List.foldl_cons]
        rw [ih, mem_sortedInsert, List.mem_cons]
        tauto
  have h := aux l []
  simp only [List.not_mem_nil, false_or] at h
  exact h

theorem shiftRight_eq_zero_iff {n w : Nat} : n >>> w = 0 ↔ n < 2 ^ w := by
  rw [Nat.shiftRight_eq_div_pow]
  exact Nat.div_eq_zero_iff (Nat.two_pow_pos w)

theorem listMapOption_eq_none_of_mem {α β : Type} {f : α → Option β} {l : List α} {x : α}
    (hx : x ∈ l) (hf : f x = none) : listMapOption f l = none := by
  induction l with
  | nil => cases hx
  | cons y ys ih =>
      rcases List.mem_cons.mp hx with h1 | h1
      · subst h1
        simp [listMapOption, hf]
      · cases hy : f y with
        | none => simp [listMapOption, hy]
        | some z => simp [listMapOption, hy, ih h1]

theorem listMapOption_some_of_mem {α β : Type} {f : α → Option β} {l : List α} {ys : List β}
    {x : α} (h : listMapOption f l = some ys) (hx : x ∈ l) : ∃ y, f x = some y ∧ y ∈ ys := by
  induction l generalizing ys with
  | nil => cases hx
  | cons a as ih =>
      cases ha : f a with
      | none => rw [listMapOption, ha] at h; cases h
      | some b =>
          rw [listMapOption, ha] at h
          cases has : listMapOption f as with
          | none => rw [has] at h; cases h
          | some bs =>
              rw [has] at h
              simp only [Option.map_some', Option.some.injEq] at h
              subst h
              rcases List.mem_cons.mp hx with h1 | h1
              · subst h1
                exact ⟨b, ha, List.mem_cons_self _ _⟩
              · obtain ⟨y, hy1, hy2⟩ := ih has h1
                exact ⟨y, hy1, List.mem_cons_of_mem _ hy2⟩

/-! ## C9: word-literal typing -/

/-- C9 (amended): the `Word` fit test is the `u64` shift `n >> w`, so for
`u64` inputs (`n < 2^64`, `w < 2^64`) the bound is `2^(w % 64)`, not
`2^w`: a width-annotated literal `Word(Some(w), n)` infers `Word<w>` iff
`n < 2^(w % 64)`; an unannotated literal `Word(None, n)` has no inferred
type and typechecks against `Word<w>` iff `n < 2^(w % 64)`. For `w < 64`
the two bounds coincide and the claim's `n < 2^w` reading holds; at
`w ≥ 64` it fails (see `c9_counterexample`). -/
theorem c9_amended_word_literal_typing (n w : Nat) (ctx : List (Path × TType))
    (hn : n < 2 ^ 64) (hw : w < 2 ^ 64) :
    (typeinfer ctx (.word (some w) n) = some (.word w) ↔ n < 2 ^ (w % 64)) ∧
    typeinfer ctx (.word none n) = none ∧
    (typecheck ctx (.word none n) (.word w) = .ok () ↔ n < 2 ^ (w % 64)) ∧
    (w < 64 → (typeinfer ctx (.word (some w) n) = some (.word w) ↔ n < 2 ^ w)) := by
  have hiff : u64Shr n w = 0 ↔ n < 2 ^ (w % 64) := by
    rw [u64Shr, Nat.mod_eq_of_lt hn]
    exact shiftRight_eq_zero_iff
  have hA : typeinfer ctx (.word (some w) n) = some (.word w) ↔ n < 2 ^ (w % 64) := by
    rw [← hiff]
    by_cases h : u64Shr n w = 0 <;> simp [typeinfer, h]
  have hC : typecheck ctx (.word none n) (.word w) = .ok () ↔ n < 2 ^ (w % 64) := by
    rw [← hiff]
    by_cases h : u64Shr n w = 0 <;> simp [typecheck, typeinfer, h]
  exact ⟨hA, rfl, hC, fun hw64 => hA.trans (by rw [Nat.mod_eq_of_lt hw64])⟩

/-- C9 witness: the amended theorem at the in-range literal `5w3`
(`5 < 2^3`, `3 < 64`). -/
theorem c9_witness :
    (typeinfer [] (.word (some 3) 5) = some (.word 3) ↔ 5 < 2 ^ (3 % 64)) ∧
    typeinfer [] (.word none 5) = none ∧
    (typecheck [] (.word none 5) (.word 3) = .ok () ↔ 5 < 2 ^ (3 % 64)) ∧
    (3 < 64 → (typeinfer [] (.word (some 3) 5) = some (.word 3) ↔ 5 < 2 ^ 3)) :=
  c9_amended_word_literal_typing 5 3 [] (by decide) (by decide)

/-- C9 counterexample (at `w = 64`): `5 < 2^64`, yet `Word(Some(64), 5)`
infers no type and `Word(None, 5)` fails to check against `Word<64>` —
the `u64` shift `5 >> 64` masks its amount to `0` in release profiles,
leaving `5 ≠ 0` (in debug profiles it panics instead of producing a
type), while the claim asserts both succeed whenever `n < 2^w`. -/
theorem c9_counterexample :
    (5 : Nat) < 2 ^ 64 ∧
    typeinfer [] (.word (some 64) 5) = none ∧
    typecheck [] (.word none 5) (.word 64) = .error (.otherErr "Doesn't fit") :=
  ⟨by decide, rfl, rfl⟩

/-! ## C7: duplicate item names -/

/-- C7 counterexample: a package with two top-level items both named `A`
resolves without any error, keeping only the second definition. -/
theorem c7_counterexample :
    resolvePkg c7dupPkg = .ok [.enumTypeDef "A" [("y", ⟨some 1, 1⟩)]] := by
  rfl

/-- C7 (amended): resolution performs no duplicate-item-name check: a
package of two same-named items resolves successfully, silently keeping
only the later definition (the name-keyed item map replaces the earlier
one). -/
theorem c7_amended_duplicates_silently_kept (n : String) (v1 v2 : List (String × WordLit)) :
    resolvePkg [.enumTypeDef n v1, .enumTypeDef n v2] = .ok [.enumTypeDef n v2] := by
  simp [resolvePkg, orderItems, strAssocInsert, assocLookup, toposortGo,
    resolveItem, AstItem.name, RItem.name, itemDependencies, List.enum,
    foldlME, mapME, List.range, List.range.loop, List.find?, List.erase,
    pure, Except.pure, throw, throwThe, MonadExceptOf.throw,
    Bind.bind, Except.bind, Functor.map, Except.map]

/-! ## C4: register pokes -/

/-- C4 (amended): `poke(r, v)` on a register path writes exactly `r`'s
net and triggers no broadcast (the result is precisely the single-net
update `pokeRaw`), and — contrary to the deferred-visibility claim — the
poked value is immediately visible through `peek(r)`. -/
theorem c4_amended_register_poke (fuel : Nat) (s : Sim) (r : Path) (v : Value) (i : Nat)
    (hfuel : 0 < fuel) (hreg : r ∈ s.regs) (hi : s.netIdByPath r = some i) :
    pokeFuel fuel s r v = some (s.pokeRaw i v) ∧
    (s.pokeRaw i v).peek r = some v ∧
    ∀ j, j ≠ i → (s.pokeRaw i v).values j = s.values j := by
  obtain ⟨f, rfl⟩ : ∃ f, fuel = f + 1 := ⟨fuel - 1, by omega⟩
  have hisreg : (s.pokeRaw i v).isReg r = true := by
    simp [Sim.isReg, Sim.pokeRaw]
    exact Or.inr hreg
  refine ⟨?_, ?_, ?_⟩
  · simp [pokeFuel, hi, hisreg]
  · have hnet : (s.pokeRaw i v).netIdByPath r = some i := hi
    show ((s.pokeRaw i v).netIdByPath r).map (s.pokeRaw i v).values = some v
    rw [hnet]
    simp [Sim.pokeRaw]
  · intro j hj
    simp [Sim.pokeRaw, hj]

/-- C4 witness: the amended theorem applied to the one-register
simulator. -/
theorem c4_witness :
    pokeFuel 1 c4wSim ["top", "r"] (.word 1 1) = some (c4wSim.pokeRaw 0 (.word 1 1)) ∧
    (c4wSim.pokeRaw 0 (.word 1 1)).peek ["top", "r"] = some (.word 1 1) ∧
    ∀ j, j ≠ 0 → (c4wSim.pokeRaw 0 (.word 1 1)).values j = c4wSim.values j :=
  c4_amended_register_poke 1 c4wSim ["top", "r"] (.word 1 1) 0 (by decide) (by decide) (by rfl)

/-- C4 counterexample: before any `clock()`, `peek(r)` already returns
the value poked into the register path `r` (it was `X` beforehand), so
the poked value does not stay invisible until the next cycle. -/
theorem c4_counterexample :
    c4wSim.peek ["top", "r"] = some Value.X ∧
    ((pokeFuel 1 c4wSim ["top", "r"] (.word 1 1)).bind
        (fun s1 => s1.peek ["top", "r"])) = some (.word 1 1) ∧
    Value.word 1 1 ≠ Value.X := by
  refine ⟨rfl, rfl, by decide⟩

/-! ## C6: cyclic reference chains -/

theorem driverForFuel_cycle2 (m : List (Path × Path)) (a b : Path)
    (hab : assocLookup m a = some b) (hba : assocLookup m b = some a) :
    ∀ fuel, driverForFuel m a fuel = none ∧ driverForFuel m b fuel = none := by
  intro fuel
  induction fuel with
  | zero => constructor <;> simp [driverForFuel, hab, hba]
  | succ n ih =>
      constructor
      · simp only [driverForFuel, hab]
        exact ih.2
      · simp only [driverForFuel, hba]
        exact ih.1

theorem netsFuel_none_of_cycle2 (c : Circuit) (a b : Path) (ha : a ∈ c.terminals)
    (hab : assocLookup (immediateDriverFor c.wires) a = some b)
    (hba : assocLookup (immediateDriverFor c.wires) b = some a) :
    ∀ fuel, netsFuel fuel c = none := by
  intro fuel
  have h := (driverForFuel_cycle2 _ _ _ hab hba fuel).1
  unfold netsFuel
  rw [listMapOption_eq_none_of_mem ha h]

/-- C6 (amended): when the direct-reference wires form a cycle, net
inference does not report an error — the `driver_for` walk diverges
(no fuel suffices), so `nets` produces no result at all. -/
theorem c6_amended_cycle_diverges (c : Circuit) (a b : Path) (ha : a ∈ c.terminals)
    (hab : assocLookup (immediateDriverFor c.wires) a = some b)
    (hba : assocLookup (immediateDriverFor c.wires) b = some a) :
    ∀ fuel, netsFuel fuel c = none :=
  netsFuel_none_of_cycle2 c a b ha hab hba

/-- C6 witness: the amended theorem applied to the concrete two-cycle
`a := b; b := a`. -/
theorem c6_witness : netsFuel 5 c6cexCircuit = none :=
  c6_amended_cycle_diverges c6cexCircuit ["top", "a"] ["top", "b"]
    (by decide) (by rfl) (by rfl) 5

/-- C6 counterexample: on the two-cycle circuit, net inference never
terminates (hence it reports nothing, rather than producing an error). -/
theorem c6_counterexample : ¬ netsTerminates c6cexCircuit := by
  rintro ⟨fuel, hsome⟩
  rw [netsFuel_none_of_cycle2 c6cexCircuit ["top", "a"] ["top", "b"]
    (by decide) (by rfl) (by rfl) fuel] at hsome
  cases hsome

/-! ## C10: terminals by component kind -/

theorem foldl_append_factor {α : Type} (g : α → List Path) :
    ∀ (l : List α) (acc : List Path),
      l.foldl (fun a x => a ++ g x) acc = acc ++ l.foldl (fun a x => a ++ g x) [] := by
  intro l
  induction l with
  | nil => simp
  | cons x xs ih =>
      intro acc
      simp only [List.foldl_cons]
      rw [ih (acc ++ g x), ih (([] : List Path) ++ g x)]
      simp

theorem mem_terminalsOf {t : Path} {comps : List (Path × NComponent)} :
    t ∈ terminalsOf comps ↔ ∃ x ∈ comps, t ∈ kindTerminals x.1 x.2 := by
  show t ∈ comps.foldl (fun a x => a ++ kindTerminals x.1 x.2) [] ↔ _
  induction comps with
  | nil => simp
  | cons x xs ih =>
      simp only [List.foldl_cons]
      rw [foldl_append_factor (fun x => kindTerminals x.1 x.2) xs]
      simp only [List.nil_append, List.mem_append, ih, List.mem_cons]
      constructor
      · rintro (h | ⟨y, hy, hty⟩)
        · exact ⟨x, Or.inl rfl, h⟩
        · exact ⟨y, Or.inr hy, hty⟩
      · rintro ⟨y, hy | hy, hty⟩
        · subst hy; exact Or.inl hty
        · exact Or.inr ⟨y, hy, hty⟩

/-- C10: the terminals of an elaborated circuit are exactly those
contributed per component kind — `p.val` for an `Incoming` at `p`,
`p.set` for an `Outgoing`, both for a `Node` or `Reg`, and none for `Mod`
or `Ext`; consequently every terminal is a `.val` or `.set` child path,
never a component path itself. -/
theorem c10_terminals_by_kind (comps : List (Path × NComponent)) (t : Path) :
    (t ∈ terminalsOf comps ↔
      ∃ p c, (p, c) ∈ comps ∧
        ((c = .incoming ∧ t = p ++ ["val"]) ∨
         (c = .outgoing ∧ t = p ++ ["set"]) ∨
         ((c = .node ∨ c = .reg) ∧ (t = p ++ ["val"] ∨ t = p ++ ["set"])))) ∧
    (t ∈ terminalsOf comps → ∃ q, t = q ++ ["val"] ∨ t = q ++ ["set"]) := by
  have hkind : ∀ (p : Path) (c : NComponent), t ∈ kindTerminals p c ↔
      ((c = .incoming ∧ t = p ++ ["val"]) ∨
       (c = .outgoing ∧ t = p ++ ["set"]) ∨
       ((c = .node ∨ c = .reg) ∧ (t = p ++ ["val"] ∨ t = p ++ ["set"]))) := by
    intro p c
    cases c <;> simp [kindTerminals]
  have hmain : t ∈ terminalsOf comps ↔
      ∃ p c, (p, c) ∈ comps ∧
        ((c = .incoming ∧ t = p ++ ["val"]) ∨
         (c = .outgoing ∧ t = p ++ ["set"]) ∨
         ((c = .node ∨ c = .reg) ∧ (t = p ++ ["val"] ∨ t = p ++ ["set"]))) := by
    rw [mem_terminalsOf]
    constructor
    · rintro ⟨⟨p, c⟩, hx, hty⟩
      exact ⟨p, c, hx, (hkind p c).mp hty⟩
    · rintro ⟨p, c, hx, hd⟩
      exact ⟨(p, c), hx, (hkind p c).mpr hd⟩
  refine ⟨hmain, fun ht => ?_⟩
  obtain ⟨p, c, _, hd⟩ := hmain.mp ht
  rcases hd with ⟨_, h⟩ | ⟨_, h⟩ | ⟨_, h | h⟩
  · exact ⟨p, Or.inl h⟩
  · exact ⟨p, Or.inr h⟩
  · exact ⟨p, Or.inl h⟩
  · exact ⟨p, Or.inr h⟩

/-- C10 witness: the theorem applied to a concrete one-port circuit. -/
theorem c10_witness :
    ∃ q, (["top", "x", "val"] : Path) = q ++ ["val"] ∨ ["top", "x", "val"] = q ++ ["set"] :=
  (c10_terminals_by_kind [(["top", "x"], .incoming)] ["top", "x", "val"]).2 (by decide)

/-! ## C8: call dependencies -/

/-- C8: in `expr_dependencies`, the callee of a `Call` is a dependency
exactly when it is none of `cat, mux, sext, zext, trycast, word` and does
not start with `@`; the dependencies of the arguments are always
included. -/
theorem c8_call_dependencies (f : String) (es : List AstExpr) (sh : List String) (d : String) :
    d ∈ exprDependencies (.call f es) sh ↔
      ((d = f ∧ ¬(f ∈ ["cat", "mux", "sext", "zext", "trycast", "word"] ∨
          strStartsWith f "@" = true)) ∨
        d ∈ exprDepsList es sh) := by
  have hsix_sub : f ∈ (["cat", "mux", "sext", "zext", "trycast", "word"] : List String) →
      f ∈ SPECIALS := by
    intro h
    simp only [SPECIALS, List.mem_cons, List.not_mem_nil, or_false] at h ⊢
    tauto
  have hspec_cover : f ∈ SPECIALS →
      (f ∈ (["cat", "mux", "sext", "zext", "trycast", "word"] : List String) ∨
        strStartsWith f "@" = true) := by
    intro h
    simp only [SPECIALS, List.mem_cons, List.not_mem_nil, or_false] at h
    rcases h with h | h | h | h | h | h | h | h
    · exact Or.inl (by simp [h])
    · exact Or.inl (by simp [h])
    · exact Or.inl (by simp [h])
    · exact Or.inl (by simp [h])
    · exact Or.inl (by simp [h])
    · exact Or.inl (by simp [h])
    · subst h; exact Or.inr (by decide)
    · subst h; exact Or.inr (by decide)
  have harm : exprDependencies (.call f es) sh =
      (if !SPECIALS.contains f && !strStartsWith f "@" then [f] else [])
        ++ exprDepsList es sh := by
    simp only [exprDependencies]
  rw [harm, List.mem_append]
  by_cases hs : f ∈ SPECIALS
  · have hc : SPECIALS.contains f = true := by simpa using hs
    simp only [hc, Bool.not_true, Bool.false_and, Bool.false_eq_true, if_false,
      List.not_mem_nil, false_or]
    constructor
    · exact Or.inr
    · rintro (⟨_, hcon⟩ | h)
      · exact absurd (hspec_cover hs) hcon
      · exact h
  · have hc : SPECIALS.contains f = false := by simpa using hs
    by_cases ha : strStartsWith f "@" = true
    · simp only [hc, Bool.not_false, Bool.true_and, ha, Bool.not_true, Bool.false_eq_true,
        if_false, List.not_mem_nil, false_or]
      constructor
      · exact Or.inr
      · rintro (⟨_, hcon⟩ | h)
        · exact absurd (Or.inr trivial) hcon
        · exact h
    · have ha' : strStartsWith f "@" = false := by
        rwa [Bool.not_eq_true] at ha
      simp only [hc, ha', Bool.not_false, Bool.true_and, if_true, List.mem_singleton]
      constructor
      · rintro (rfl | h)
        · refine Or.inl ⟨rfl, ?_⟩
          rintro (h6 | hst)
          · exact hs (hsix_sub h6)
          · cases hst
        · exact Or.inr h
      · rintro (⟨rfl, _⟩ | h)
        · exact Or.inl rfl
        · exact Or.inr h

/-! ## C5: round-trip reference rewriting -/

/-- C5 counterexample: in the circuit `b := a` the terminal `top.b` is a
drivee of `top.a`'s net, both paths map to net 0, and rewriting
`Reference(top.b)` to `Net(0)` and mapping back through the net's driver
yields `top.a`, not the original `top.b`. -/
theorem c5_counterexample :
    netsFuel 4 c5cexCircuit = some [⟨["top", "a"], [["top", "b"]]⟩] ∧
    (simNewFuel 4 c5cexCircuit).map
        (fun s => (s.netIdByPath ["top", "a"], s.netIdByPath ["top", "b"]))
      = some (some 0, some 0) ∧
    (Expr.reference ["top", "b"]).referencesToNets [(["top", "a"], 0), (["top", "b"], 0)] []
      = some (.net 0) ∧
    (Expr.net 0).netIds.filterMap
        (fun i => (([⟨["top", "a"], [["top", "b"]]⟩] : List Net).map Net.driver).get? i)
      = [["top", "a"]] ∧
    (Expr.reference ["top", "b"]).pathsOf = [["top", "b"]] ∧
    (["top", "a"] : Path) ≠ ["top", "b"] := by
  exact ⟨rfl, rfl, rfl, rfl, rfl, by decide⟩

/-- C5 (amended): for a let-free reference expression, rewriting its
references to nets and mapping each net id back through `drivers`
produces the set of drivers of the nets of the referenced paths; when
every referenced path is itself the driver of its net, this reproduces
the original set of referenced paths exactly. -/
theorem c5_amended_roundtrip (e : Expr) (m : List (Path × Nat)) (drivers : List Path)
    (hnl : e.hasLet = false) (hnn : e.hasNet = false)
    (hmap : ∀ p ∈ e.pathsOf, ∃ i, assocLookup m p = some i ∧ drivers.get? i = some p) :
    ∃ e2, e.referencesToNets m [] = some e2 ∧
      ∀ q, q ∈ e2.netIds.filterMap (fun i => drivers.get? i) ↔ q ∈ e.pathsOf := by
  induction e with
  | reference p =>
      obtain ⟨i, hm, hd⟩ := hmap p (by simp [Expr.pathsOf])
      refine ⟨.net i, ?_, ?_⟩
      · simp [Expr.referencesToNets, hm]
      · intro q
        have hd2 : drivers[i]? = some p := by simpa using hd
        simp [Expr.netIds, Expr.pathsOf, hd2, eq_comm]
  | net n => simp [Expr.hasNet] at hnn
  | word w v =>
      exact ⟨.word w v, rfl, by simp [Expr.netIds, Expr.pathsOf]⟩
  | letE x e b ihe ihb => simp [Expr.hasLet] at hnl
  | binop op e1 e2 ih1 ih2 =>
      simp only [Expr.hasLet, Bool.or_eq_false_iff] at hnl
      simp only [Expr.hasNet, Bool.or_eq_false_iff] at hnn
      have hmap1 : ∀ p ∈ e1.pathsOf, ∃ i, assocLookup m p = some i ∧ drivers.get? i = some p :=
        fun p hp => hmap p (by
          simp only [Expr.pathsOf, mem_sortedDedup, List.mem_append]
          exact Or.inl hp)
      have hmap2 : ∀ p ∈ e2.pathsOf, ∃ i, assocLookup m p = some i ∧ drivers.get? i = some p :=
        fun p hp => hmap p (by
          simp only [Expr.pathsOf, mem_sortedDedup, List.mem_append]
          exact Or.inr hp)
      obtain ⟨r1, h1, hq1⟩ := ih1 hnl.1 hnn.1 hmap1
      obtain ⟨r2, h2, hq2⟩ := ih2 hnl.2 hnn.2 hmap2
      refine ⟨.binop op r1 r2, ?_, ?_⟩
      · simp [Expr.referencesToNets, h1, h2]
      · intro q
        simp only [Expr.netIds, Expr.pathsOf, List.filterMap_append, List.mem_append,
          mem_sortedDedup, hq1, hq2]
  | ifE c t f ihc iht ihf =>
      simp only [Expr.hasLet, Bool.or_eq_false_iff] at hnl
      simp only [Expr.hasNet, Bool.or_eq_false_iff] at hnn
      have hmapc : ∀ p ∈ c.pathsOf, ∃ i, assocLookup m p = some i ∧ drivers.get? i = some p :=
        fun p hp => hmap p (by
          simp only [Expr.pathsOf, mem_sortedDedup, List.mem_append]
          exact Or.inl (Or.inl hp))
      have hmapt : ∀ p ∈ t.pathsOf, ∃ i, assocLookup m p = some i ∧ drivers.get? i = some p :=
        fun p hp => hmap p (by
          simp only [Expr.pathsOf, mem_sortedDedup, List.mem_append]
          exact Or.inl (Or.inr hp))
      have hmapf : ∀ p ∈ f.pathsOf, ∃ i, assocLookup m p = some i ∧ drivers.get? i = some p :=
        fun p hp => hmap p (by
          simp only [Expr.pathsOf, mem_sortedDedup, List.mem_append]
          exact Or.inr hp)
      obtain ⟨rc, h1, hq1⟩ := ihc hnl.1.1 hnn.1.1 hmapc
      obtain ⟨rt, h2, hq2⟩ := iht hnl.1.2 hnn.1.2 hmapt
      obtain ⟨rf, h3, hq3⟩ := ihf hnl.2 hnn.2 hmapf
      refine ⟨.ifE rc rt rf, ?_, ?_⟩
      · simp [Expr.referencesToNets, h1, h2, h3]
      · intro q
        simp only [Expr.netIds, Expr.pathsOf, List.filterMap_append, List.mem_append,
          mem_sortedDedup, hq1, hq2, hq3]
  | mux c t f ihc iht ihf =>
      simp only [Expr.hasLet, Bool.or_eq_false_iff] at hnl
      simp only [Expr.hasNet, Bool.or_eq_false_iff] at hnn
      have hmapc : ∀ p ∈ c.pathsOf, ∃ i, assocLookup m p = some i ∧ drivers.get? i = some p :=
        fun p hp => hmap p (by
          simp only [Expr.pathsOf, mem_sortedDedup, List.mem_append]
          exact Or.inl (Or.inl hp))
      have hmapt : ∀ p ∈ t.pathsOf, ∃ i, assocLookup m p = some i ∧ drivers.get? i = some p :=
        fun p hp => hmap p (by
          simp only [Expr.pathsOf, mem_sortedDedup, List.mem_append]
          exact Or.inl (Or.inr hp))
      have hmapf : ∀ p ∈ f.pathsOf, ∃ i, assocLookup m p = some i ∧ drivers.get? i = some p :=
        fun p hp => hmap p (by
          simp only [Expr.pathsOf, mem_sortedDedup, List.mem_append]
          exact Or.inr hp)
      obtain ⟨rc, h1, hq1⟩ := ihc hnl.1.1 hnn.1.1 hmapc
      obtain ⟨rt, h2, hq2⟩ := iht hnl.1.2 hnn.1.2 hmapt
      obtain ⟨rf, h3, hq3⟩ := ihf hnl.2 hnn.2 hmapf
      refine ⟨.mux rc rt rf, ?_, ?_⟩
      · simp [Expr.referencesToNets, h1, h2, h3]
      · intro q
        simp only [Expr.netIds, Expr.pathsOf, List.filterMap_append, List.mem_append,
          mem_sortedDedup, hq1, hq2, hq3]
  | idx e i ih =>
      simp only [Expr.hasLet] at hnl
      simp only [Expr.hasNet] at hnn
      obtain ⟨r, h1, hq⟩ := ih hnl hnn (fun p hp => hmap p (by simpa [Expr.pathsOf] using hp))
      refine ⟨.idx r i, ?_, ?_⟩
      · simp [Expr.referencesToNets, h1]
      · intro q
        simpa [Expr.netIds, Expr.pathsOf] using hq q
  | hole =>
      exact ⟨.hole, rfl, by simp [Expr.netIds, Expr.pathsOf]⟩

/-- C5 witness: the amended theorem applied to `Reference(top.a)` with
`top.a` the driver of net 0. -/
theorem c5_witness :
    ∃ e2, (Expr.reference ["top", "a"]).referencesToNets [(["top", "a"], 0)] [] = some e2 ∧
      ∀ q, q ∈ e2.netIds.filterMap (fun i => ([["top", "a"]] : List Path).get? i) ↔
        q ∈ (Expr.reference ["top", "a"]).pathsOf :=
  c5_amended_roundtrip (Expr.reference ["top", "a"]) [(["top", "a"], 0)] [["top", "a"]]
    (by rfl) (by rfl)
    (by
      intro p hp
      simp only [Expr.pathsOf, List.mem_singleton] at hp
      subst hp
      exact ⟨0, rfl, rfl⟩)

/-! ## Order lemmas for sorted path sets -/

theorem charListLt_irrefl : ∀ l : List Char, charListLt l l = false := by
  intro l
  induction l with
  | nil => rfl
  | cons c cs ih => simp [charListLt, ih]

theorem charListLt_trans : ∀ {a b c : List Char},
    charListLt a b = true → charListLt b c = true → charListLt a c = true := by
  intro a
  induction a with
  | nil =>
      intro b c hab hbc
      cases b with
      | nil => cases hab
      | cons y ys =>
          cases c with
          | nil => cases hbc
          | cons z zs => rfl
  | cons x xs ih =>
      intro b c hab hbc
      cases b with
      | nil => cases hab
      | cons y ys =>
          cases c with
          | nil => cases hbc
          | cons z zs =>
              rw [charListLt] at hab hbc ⊢
              by_cases hxy : x = y
              · subst hxy
                rw [if_pos rfl] at hab
                by_cases hyz : x = z
                · subst hyz
                  rw [if_pos rfl] at hbc ⊢
                  exact ih hab hbc
                · rw [if_neg hyz] at hbc ⊢
                  exact hbc
              · rw [if_neg hxy] at hab
                have hxy2 : x < y := of_decide_eq_true hab
                by_cases hyz : y = z
                · subst hyz
                  rw [if_neg hxy]
                  exact hab
                · rw [if_neg hyz] at hbc
                  have hyz2 : y < z := of_decide_eq_true hbc
                  have hxz2 : x < z := lt_trans hxy2 hyz2
                  have hxz : x ≠ z := ne_of_lt hxz2
                  rw [if_neg hxz]
                  exact decide_eq_true hxz2

theorem charListLt_total : ∀ a b : List Char,
    a = b ∨ charListLt a b = true ∨ charListLt b a = true := by
  intro a
  induction a with
  | nil =>
      intro b
      cases b with
      | nil => exact Or.inl rfl
      | cons y ys => exact Or.inr (Or.inl rfl)
  | cons x xs ih =>
      intro b
      cases b with
      | nil => exact Or.inr (Or.inr rfl)
      | cons y ys =>
          by_cases hxy : x = y
          · subst hxy
            rcases ih ys with h | h | h
            · exact Or.inl (by rw [h])
            · refine Or.inr (Or.inl ?_)
              rw [charListLt, if_pos rfl]
              exact h
            · refine Or.inr (Or.inr ?_)
              rw [charListLt, if_pos rfl]
              exact h
          · rcases lt_trichotomy x y with h | h | h
            · refine Or.inr (Or.inl ?_)
              rw [charListLt, if_neg hxy]
              exact decide_eq_true h
            · exact absurd h hxy
            · refine Or.inr (Or.inr ?_)
              rw [charListLt, if_neg (Ne.symm hxy)]
              exact decide_eq_true h

theorem strLtB_irrefl (s : String) : strLtB s s = false :=
  charListLt_irrefl s.data

theorem strLtB_trans {a b c : String} (h1 : strLtB a b = true) (h2 : strLtB b c = true) :
    strLtB a c = true :=
  charListLt_trans h1 h2

theorem strLtB_total (a b : String) : a = b ∨ strLtB a b = true ∨ strLtB b a = true := by
  rcases charListLt_total a.data b.data with h | h | h
  · left
    cases a with
    | mk da =>
        cases b with
        | mk db =>
            have hdd : da = db := h
            rw [hdd]
  · exact Or.inr (Or.inl h)
  · exact Or.inr (Or.inr h)

theorem pathLt_irrefl : ∀ p : Path, pathLt p p = false := by
  intro p
  induction p with
  | nil => rfl
  | cons s ss ih => simp [pathLt, ih]

theorem pathLt_trans : ∀ {a b c : Path},
    pathLt a b = true → pathLt b c = true → pathLt a c = true := by
  intro a
  induction a with
  | nil =>
      intro b c hab hbc
      cases b with
      | nil => cases hab
      | cons y ys =>
          cases c with
          | nil => cases hbc
          | cons z zs => rfl
  | cons x xs ih =>
      intro b c hab hbc
      cases b with
      | nil => cases hab
      | cons y ys =>
          cases c with
          | nil => cases hbc
          | cons z zs =>
              rw [pathLt] at hab hbc ⊢
              by_cases hxy : x = y
              · subst hxy
                rw [if_pos rfl] at hab
                by_cases hyz : x = z
                · subst hyz
                  rw [if_pos rfl] at hbc ⊢
                  exact ih hab hbc
                · rw [if_neg hyz] at hbc ⊢
                  exact hbc
              · rw [if_neg hxy] at hab
                by_cases hyz : y = z
                · subst hyz
                  rw [if_neg hxy]
                  exact hab
                · rw [if_neg hyz] at hbc
                  have hxz2 : strLtB x z = true := strLtB_trans hab hbc
                  have hxz : x ≠ z := by
                    intro heq
                    subst heq
                    rw [strLtB_irrefl] at hxz2
                    cases hxz2
                  rw [if_neg hxz]
                  exact hxz2

theorem pathLt_total : ∀ a b : Path, a = b ∨ pathLt a b = true ∨ pathLt b a = true := by
  intro a
  induction a with
  | nil =>
      intro b
      cases b with
      | nil => exact Or.inl rfl
      | cons y ys => exact Or.inr (Or.inl rfl)
  | cons x xs ih =>
      intro b
      cases b with
      | nil => exact Or.inr (Or.inr rfl)
      | cons y ys =>
          by_cases hxy : x = y
          · subst hxy
            rcases ih ys with h | h | h
            · exact Or.inl (by rw [h])
            · refine Or.inr (Or.inl ?_)
              rw [pathLt, if_pos rfl]
              exact h
            · refine Or.inr (Or.inr ?_)
              rw [pathLt, if_pos rfl]
              exact h
          · rcases strLtB_total x y with h | h | h
            · exact absurd h hxy
            · refine Or.inr (Or.inl ?_)
              rw [pathLt, if_neg hxy]
              exact h
            · refine Or.inr (Or.inr ?_)
              rw [pathLt, if_neg (Ne.symm hxy)]
              exact h

/-- A strictly `pathLt`-sorted list of paths. -/
def SortedP (l : List Path) : Prop := l.Pairwise (fun x y => pathLt x y = true)

theorem sortedInsert_sorted {p : Path} {l : List Path} (h : SortedP l) :
    SortedP (sortedInsert p l) := by
  induction l with
  | nil => simp [sortedInsert, SortedP]
  | cons q rest ih =>
      rw [sortedInsert]
      rcases List.pairwise_cons.mp h with ⟨hq, hrest⟩
      by_cases h1 : p = q
      · rw [if_pos h1]
        exact h
      · rw [if_neg h1]
        by_cases h2 : pathLt p q = true
        · rw [if_pos h2]
          refine List.pairwise_cons.mpr ⟨?_, h⟩
          intro x hx
          rcases List.mem_cons.mp hx with h3 | h3
          · subst h3; exact h2
          · exact pathLt_trans h2 (hq x h3)
        · rw [if_neg h2]
          have hqp : pathLt q p = true := by
            rcases pathLt_total p q with h3 | h3 | h3
            · exact absurd h3 h1
            · exact absurd h3 h2
            · exact h3
          refine List.pairwise_cons.mpr ⟨?_, ih hrest⟩
          intro x hx
          rcases mem_sortedInsert.mp hx with h3 | h3
          · subst h3; exact hqp
          · exact hq x h3

theorem sortedDedup_sorted (l : List Path) : SortedP (sortedDedup l) := by
  have aux : ∀ (l acc : List Path), SortedP acc →
      SortedP (l.foldl (fun acc p => sortedInsert p acc) acc) := by
    intro l
    induction l with
    | nil => intro acc h; exact h
    | cons x xs ih =>
        intro acc h
        exact ih _ (sortedInsert_sorted h)
  exact aux l [] (by simp [SortedP])

theorem sortedDedup_nodup (l : List Path) : (sortedDedup l).Nodup := by
  have h := sortedDedup_sorted l
  refine List.Pairwise.imp ?_ h
  intro a b hab heq
  subst heq
  rw [pathLt_irrefl] at hab
  cases hab

/-! ## C2: the net partition -/

theorem driverForFuel_lookup_none {m : List (Path × Path)} {p d : Path} {fuel : Nat}
    (h : driverForFuel m p fuel = some d) : assocLookup m d = none := by
  induction fuel generalizing p with
  | zero =>
      rw [driverForFuel] at h
      cases hl : assocLookup m p with
      | none =>
          rw [hl] at h
          injection h with h
          subst h
          exact hl
      | some q => rw [hl] at h; cases h
  | succ n ih =>
      rw [driverForFuel] at h
      cases hl : assocLookup m p with
      | none =>
          rw [hl] at h
          injection h with h
          subst h
          exact hl
      | some q =>
          rw [hl] at h
          exact ih h

theorem driverForFuel_of_lookup_none {m : List (Path × Path)} {d : Path}
    (h : assocLookup m d = none) (fuel : Nat) : driverForFuel m d fuel = some d := by
  cases fuel <;> simp [driverForFuel, h]

theorem listMapOption_mem_rev {α β : Type} {f : α → Option β} {l : List α} {ys : List β}
    (h : listMapOption f l = some ys) {y : β} (hy : y ∈ ys) : ∃ x ∈ l, f x = some y := by
  induction l generalizing ys with
  | nil =>
      rw [listMapOption] at h
      injection h with h
      subst h
      cases hy
  | cons a as ih =>
      cases ha : f a with
      | none => rw [listMapOption, ha] at h; cases h
      | some b =>
          rw [listMapOption, ha] at h
          cases has : listMapOption f as with
          | none => rw [has] at h; cases h
          | some bs =>
              rw [has] at h
              simp only [Option.map_some', Option.some.injEq] at h
              subst h
              rcases List.mem_cons.mp hy with h1 | h1
              · subst h1
                exact ⟨a, List.mem_cons_self _ _, ha⟩
              · obtain ⟨x, hx1, hx2⟩ := ih has h1
                exact ⟨x, List.mem_cons_of_mem _ hx1, hx2⟩

theorem containsT_iff {n : Net} {t : Path} :
    n.containsT t = true ↔ t = n.driver ∨ t ∈ n.drivees := by
  simp [Net.containsT]

theorem Net.add_driver (n : Net) (t : Path) : (n.add t).driver = n.driver := by
  rw [Net.add]
  split <;> rfl

theorem containsT_add_self (n : Net) (t : Path) : (n.add t).containsT t = true := by
  rw [Net.add]
  by_cases h : t = n.driver
  · rw [if_pos h]
    exact containsT_iff.mpr (Or.inl h)
  · rw [if_neg h]
    exact containsT_iff.mpr (Or.inr (mem_sortedInsert.mpr (Or.inl rfl)))

theorem containsT_add_mono {n : Net} {t x : Path} (h : n.containsT x = true) :
    (n.add t).containsT x = true := by
  rw [Net.add]
  by_cases ht : t = n.driver
  · rw [if_pos ht]
    exact h
  · rw [if_neg ht]
    rcases containsT_iff.mp h with h1 | h1
    · exact containsT_iff.mpr (Or.inl h1)
    · exact containsT_iff.mpr (Or.inr (mem_sortedInsert.mpr (Or.inr h1)))

theorem mem_add_drivees {n : Net} {t x : Path} (h : x ∈ (n.add t).drivees) :
    x = t ∨ x ∈ n.drivees := by
  rw [Net.add] at h
  by_cases ht : t = n.driver
  · rw [if_pos ht] at h
    exact Or.inr h
  · rw [if_neg ht] at h
    exact mem_sortedInsert.mp h

theorem netsFold_inv (idf : List (Path × Path)) (fuel : Nat) :
    ∀ (ts : List Path) (nets0 netsF : List Net),
      foldlMO (fun nets t =>
          match driverForFuel idf t fuel with
          | none => none
          | some d => some (nets.map (fun n => if n.driver = d then n.add t else n)))
        nets0 ts = some netsF →
      (∀ n ∈ nets0, ∀ x ∈ n.drivees, driverForFuel idf x fuel = some n.driver) →
      (netsF.map Net.driver = nets0.map Net.driver) ∧
      (∀ n ∈ netsF, ∀ x ∈ n.drivees, driverForFuel idf x fuel = some n.driver) ∧
      (∀ t ∈ ts, ∀ d, driverForFuel idf t fuel = some d →
        d ∈ nets0.map Net.driver → ∃ n ∈ netsF, n.driver = d ∧ n.containsT t = true) ∧
      (∀ d0 x, (∃ n ∈ nets0, n.driver = d0 ∧ n.containsT x = true) →
        ∃ n ∈ netsF, n.driver = d0 ∧ n.containsT x = true) := by
  intro ts
  induction ts with
  | nil =>
      intro nets0 netsF h h0
      rw [foldlMO] at h
      injection h with h
      subst h
      exact ⟨rfl, h0, by simp, fun d0 x hx => hx⟩
  | cons t ts ih =>
      intro nets0 netsF h h0
      rw [foldlMO] at h
      cases hD : driverForFuel idf t fuel with
      | none => rw [hD] at h; cases h
      | some d =>
          rw [hD] at h
          have h0' : ∀ n ∈ nets0.map (fun n => if n.driver = d then n.add t else n),
              ∀ x ∈ n.drivees, driverForFuel idf x fuel = some n.driver := by
            intro n hn x hx
            obtain ⟨n0, hn0, rfl⟩ := List.mem_map.mp hn
            by_cases hdr : n0.driver = d
            · rw [if_pos hdr] at hx ⊢
              rcases mem_add_drivees hx with rfl | hx0
              · rw [Net.add_driver, hdr]
                exact hD
              · rw [Net.add_driver]
                exact h0 n0 hn0 x hx0
            · rw [if_neg hdr] at hx ⊢
              exact h0 n0 hn0 x hx
          have hmap1 : (nets0.map (fun n => if n.driver = d then n.add t else n)).map Net.driver
              = nets0.map Net.driver := by
            rw [List.map_map]
            have hfun : (Net.driver ∘ fun n => if n.driver = d then n.add t else n)
                = Net.driver := by
              funext n
              by_cases hdr : n.driver = d
              · simp [Function.comp, hdr, Net.add_driver]
              · simp [Function.comp, hdr]
            rw [hfun]
          obtain ⟨A, B, C, P⟩ := ih _ netsF h h0'
          refine ⟨by rw [A, hmap1], B, ?_, ?_⟩
          · intro t' ht' d' hd' hdmem
            rcases List.mem_cons.mp ht' with heq | ht2
            · rw [heq]
              rw [heq, hD] at hd'
              injection hd' with hd2
              subst hd2
              obtain ⟨n0, hn0, hdr⟩ := List.mem_map.mp hdmem
              have hm : (if n0.driver = d then n0.add t else n0)
                  ∈ nets0.map (fun n => if n.driver = d then n.add t else n) :=
                List.mem_map_of_mem (fun n => if n.driver = d then n.add t else n) hn0
              rw [if_pos hdr] at hm
              exact P d t ⟨n0.add t, hm, by rw [Net.add_driver, hdr], containsT_add_self n0 t⟩
            · exact C t' ht2 d' hd' (by rw [hmap1]; exact hdmem)
          · intro d0 x hx
            apply P
            obtain ⟨n0, hn0, hdr0, hcx⟩ := hx
            by_cases hdr : n0.driver = d
            · have hm : (if n0.driver = d then n0.add t else n0)
                  ∈ nets0.map (fun n => if n.driver = d then n.add t else n) :=
                List.mem_map_of_mem (fun n => if n.driver = d then n.add t else n) hn0
              rw [if_pos hdr] at hm
              exact ⟨n0.add t, hm, by rw [Net.add_driver, hdr0], containsT_add_mono hcx⟩
            · have hm : (if n0.driver = d then n0.add t else n0)
                  ∈ nets0.map (fun n => if n.driver = d then n.add t else n) :=
                List.mem_map_of_mem (fun n => if n.driver = d then n.add t else n) hn0
              rw [if_neg hdr] at hm
              exact ⟨n0, hm, hdr0, hcx⟩

/-- C2: whenever the nets are computed at simulator construction (the
driver walks all terminate within the given fuel), they partition the
circuit's terminals: every terminal lies in exactly one net, and that
net's driver is the endpoint of the `immediate_driver` walk from the
terminal. -/
theorem c2_net_partition (fuel : Nat) (c : Circuit) (ns : List Net)
    (h : netsFuel fuel c = some ns) (t : Path) (ht : t ∈ c.terminals) :
    ∃ d, driverForFuel (immediateDriverFor c.wires) t fuel = some d ∧
      (∃ n ∈ ns, n.driver = d ∧ n.containsT t = true) ∧
      (∀ n ∈ ns, n.containsT t = true → n.driver = d) ∧
      (∀ n1 ∈ ns, ∀ n2 ∈ ns, n1.containsT t = true → n2.containsT t = true → n1 = n2) := by
  rw [netsFuel] at h
  cases hmapo : listMapOption
      (fun t => driverForFuel (immediateDriverFor c.wires) t fuel) c.terminals with
  | none => rw [hmapo] at h; cases h
  | some drivers =>
      rw [hmapo] at h
      obtain ⟨d, hD, hdmem⟩ := listMapOption_some_of_mem hmapo ht
      have hinit : ((sortedDedup drivers).map (fun d => Net.mk d [])).map Net.driver
          = sortedDedup drivers := by
        rw [List.map_map]
        have hfun : (Net.driver ∘ fun d => Net.mk d []) = id := rfl
        rw [hfun, List.map_id]
      obtain ⟨A, B, C, P⟩ := netsFold_inv _ fuel c.terminals _ ns h (by
        intro n hn x hx
        obtain ⟨d0, _, rfl⟩ := List.mem_map.mp hn
        cases hx)
      have hdinit : d ∈ ((sortedDedup drivers).map (fun d => Net.mk d [])).map Net.driver := by
        rw [hinit]
        exact mem_sortedDedup.mpr hdmem
      obtain ⟨n, hnmem, hndr, hnct⟩ := C t ht d hD hdinit
      have huniq : ∀ n' ∈ ns, n'.containsT t = true → n'.driver = d := by
        intro n' hn' hct
        rcases containsT_iff.mp hct with h1 | h1
        · have hdm : n'.driver ∈ ns.map Net.driver := List.mem_map_of_mem _ hn'
          rw [A, hinit] at hdm
          obtain ⟨u, _, hDu⟩ := listMapOption_mem_rev hmapo (mem_sortedDedup.mp hdm)
          have hnone := driverForFuel_lookup_none hDu
          have hDt : driverForFuel (immediateDriverFor c.wires) t fuel = some t := by
            rw [h1]
            exact driverForFuel_of_lookup_none hnone fuel
          rw [hD] at hDt
          injection hDt with hDt
          rw [hDt, ← h1]
        · have h2 := B n' hn' t h1
          rw [hD] at h2
          injection h2 with h2
          exact h2.symm
      refine ⟨d, hD, ⟨n, hnmem, hndr, hnct⟩, huniq, ?_⟩
      intro n1 hn1 n2 hn2 hc1 hc2
      have hnd : (ns.map Net.driver).Nodup := by
        rw [A, hinit]
        exact sortedDedup_nodup drivers
      exact List.inj_on_of_nodup_map hnd hn1 hn2
        (by rw [huniq n1 hn1 hc1, huniq n2 hn2 hc2])

/-- C2 witness: the partition theorem applied to the concrete circuit
`b := a`. -/
theorem c2_witness :
    ∃ d, driverForFuel (immediateDriverFor c2wCircuit.wires) ["top", "b"] 4 = some d ∧
      (∃ n ∈ ([⟨["top", "a"], [["top", "b"]]⟩] : List Net),
        n.driver = d ∧ n.containsT ["top", "b"] = true) ∧
      (∀ n ∈ ([⟨["top", "a"], [["top", "b"]]⟩] : List Net),
        n.containsT ["top", "b"] = true → n.driver = d) ∧
      (∀ n1 ∈ ([⟨["top", "a"], [["top", "b"]]⟩] : List Net),
        ∀ n2 ∈ ([⟨["top", "a"], [["top", "b"]]⟩] : List Net),
        n1.containsT ["top", "b"] = true → n2.containsT ["top", "b"] = true → n1 = n2) :=
  c2_net_partition 4 c2wCircuit [⟨["top", "a"], [["top", "b"]]⟩] rfl ["top", "b"] (by decide)

/-! ## Simulator state helper lemmas -/

theorem sameShape_refl (s : Sim) : SameShape s s := ⟨rfl, rfl, rfl, rfl⟩

theorem SameShape.trans {s1 s2 s3 : Sim} (h1 : SameShape s1 s2) (h2 : SameShape s2 s3) :
    SameShape s1 s3 :=
  ⟨h1.1.trans h2.1, h1.2.1.trans h2.2.1, h1.2.2.1.trans h2.2.2.1, h1.2.2.2.trans h2.2.2.2⟩

theorem pokeRaw_shape (s : Sim) (i : Nat) (v : Value) : SameShape (s.pokeRaw i v) s :=
  ⟨rfl, rfl, rfl, rfl⟩

theorem netIdByPath_congr {s1 s2 : Sim} (h : SameShape s1 s2) :
    s1.netIdByPath = s2.netIdByPath := by
  funext p
  rw [Sim.netIdByPath, Sim.netIdByPath, h.1, h.2.1]

theorem pokeRaw_values_self (s : Sim) (i : Nat) (v : Value) :
    (s.pokeRaw i v).values i = v := by
  simp [Sim.pokeRaw]

theorem pokeRaw_values_other (s : Sim) (i j : Nat) (v : Value) (h : j ≠ i) :
    (s.pokeRaw i v).values j = s.values j := by
  simp [Sim.pokeRaw, h]

theorem isReg_of_mem_regs {s : Sim} {p : Path} (h : p ∈ s.regs) : s.isReg p = true := by
  simp [Sim.isReg]
  exact Or.inr h

theorem isReg_of_parent_mem_regs {s : Sim} {p : Path} (h : p.parent ∈ s.regs) :
    s.isReg p = true := by
  simp [Sim.isReg]
  exact Or.inl h

theorem pset_parent (r : Path) : (r.pset).parent = r := by
  rw [Path.pset, Path.parent]
  exact List.dropLast_concat

/-- The broadcast loop inside `poke`/`broadcast_update` is the identity
when no wire's expression depends on the poked terminal. -/
theorem pokeLoop_noop (fuel : Nat) (p : Path) :
    ∀ (l : List Wire) (st : Sim), (∀ w ∈ l, w.expr.dependsOn p = false) →
      foldlMO (fun st w =>
        if w.expr.dependsOn p then
          match evalExpr st [] w.expr with
          | none => none
          | some val => pokeFuel fuel st (effTarget w.target w.kind) val
        else some st) st l = some st := by
  intro l
  induction l with
  | nil => intro st _; rfl
  | cons w ws ih =>
      intro st h
      rw [foldlMO]
      have hw : w.expr.dependsOn p = false := h w (List.mem_cons_self _ _)
      simp only [hw, Bool.false_eq_true, if_false]
      exact ih st (fun w2 hw2 => h w2 (List.mem_cons_of_mem _ hw2))

theorem broadcastFuel_noop (fuel : Nat) (s : Sim) (p : Path)
    (h : ∀ w ∈ s.wires, w.expr.dependsOn p = false) :
    broadcastFuel fuel s p = some s := by
  rw [broadcastFuel]
  exact pokeLoop_noop fuel p s.wires s h

/-- `poke` on a register path (or any path all wires ignore) reduces to
the single-net write. -/
theorem pokeFuel_isReg_eq (fuel : Nat) (s : Sim) (p : Path) (v : Value) (i : Nat)
    (hfuel : 0 < fuel) (hi : s.netIdByPath p = some i)
    (hreg : (s.pokeRaw i v).isReg p = true) :
    pokeFuel fuel s p v = some (s.pokeRaw i v) := by
  obtain ⟨f, rfl⟩ : ∃ f, fuel = f + 1 := ⟨fuel - 1, by omega⟩
  rw [pokeFuel, hi]
  simp only [hreg, if_true]

/-- `poke` on a path that no wire depends on reduces to the single-net
write even when the path is not a register. -/
theorem pokeFuel_nodep_eq (fuel : Nat) (s : Sim) (p : Path) (v : Value) (i : Nat)
    (hfuel : 0 < fuel) (hi : s.netIdByPath p = some i)
    (hdep : ∀ w ∈ s.wires, w.expr.dependsOn p = false) :
    pokeFuel fuel s p v = some (s.pokeRaw i v) := by
  obtain ⟨f, rfl⟩ : ∃ f, fuel = f + 1 := ⟨fuel - 1, by omega⟩
  rw [pokeFuel, hi]
  by_cases hreg : (s.pokeRaw i v).isReg p
  · simp only [hreg, if_true]
  · simp only [hreg, Bool.false_eq_true, if_false]
    exact pokeLoop_noop f p (s.pokeRaw i v).wires (s.pokeRaw i v) hdep

/-- Evaluation does not consult the simulator state when every free
variable of a net-free expression is bound in the environment. -/
theorem evalExpr_state_irrel (e : Expr) : ∀ (env : List (Path × Value)) (s1 s2 : Sim),
    e.hasNet = false → (∀ p ∈ e.freeVars, (assocLookup env p).isSome = true) →
    evalExpr s1 env e = evalExpr s2 env e := by
  induction e with
  | reference p =>
      intro env s1 s2 _ henv
      have hp := henv p (by simp [Expr.freeVars])
      cases hl : assocLookup env p with
      | none => rw [hl] at hp; cases hp
      | some v => rw [evalExpr, evalExpr, hl]
  | net n => intro env s1 s2 hn _; simp [Expr.hasNet] at hn
  | word w v =>
      intro env s1 s2 _ _
      cases w <;> rfl
  | letE x e b ihe ihb =>
      intro env s1 s2 hn henv
      simp only [Expr.hasNet, Bool.or_eq_false_iff] at hn
      have henve : ∀ p ∈ e.freeVars, (assocLookup env p).isSome = true := by
        intro p hp
        refine henv p ?_
        simp only [Expr.freeVars, mem_sortedDedup, List.mem_append]
        exact Or.inr hp
      rw [evalExpr, evalExpr, ihe env s1 s2 hn.1 henve]
      cases hv : evalExpr s2 env e with
      | none => rfl
      | some v =>
          have henv2 : ∀ p ∈ b.freeVars,
              (assocLookup ((([x] : Path), v) :: env) p).isSome = true := by
            intro p hp
            rw [assocLookup]
            by_cases hx : p = [x]
            · rw [if_pos hx]; rfl
            · rw [if_neg hx]
              refine henv p ?_
              simp only [Expr.freeVars, mem_sortedDedup, List.mem_append, List.mem_filter]
              exact Or.inl ⟨hp, by simpa using hx⟩
          exact ihb (([x], v) :: env) s1 s2 hn.2 henv2
  | binop op e1 e2 ih1 ih2 =>
      intro env s1 s2 hn henv
      simp only [Expr.hasNet, Bool.or_eq_false_iff] at hn
      have h1 : ∀ p ∈ e1.freeVars, (assocLookup env p).isSome = true := fun p hp =>
        henv p (by
          simp only [Expr.freeVars, mem_sortedDedup, List.mem_append]
          exact Or.inl hp)
      have h2 : ∀ p ∈ e2.freeVars, (assocLookup env p).isSome = true := fun p hp =>
        henv p (by
          simp only [Expr.freeVars, mem_sortedDedup, List.mem_append]
          exact Or.inr hp)
      rw [evalExpr, evalExpr, ih1 env s1 s2 hn.1 h1, ih2 env s1 s2 hn.2 h2]
  | ifE c t f ihc iht ihf =>
      intro env s1 s2 hn henv
      simp only [Expr.hasNet, Bool.or_eq_false_iff] at hn
      have hc : ∀ p ∈ c.freeVars, (assocLookup env p).isSome = true := fun p hp =>
        henv p (by
          simp only [Expr.freeVars, mem_sortedDedup, List.mem_append]
          exact Or.inl (Or.inl hp))
      have ht : ∀ p ∈ t.freeVars, (assocLookup env p).isSome = true := fun p hp =>
        henv p (by
          simp only [Expr.freeVars, mem_sortedDedup, List.mem_append]
          exact Or.inl (Or.inr hp))
      have hf : ∀ p ∈ f.freeVars, (assocLookup env p).isSome = true := fun p hp =>
        henv p (by
          simp only [Expr.freeVars, mem_sortedDedup, List.mem_append]
          exact Or.inr hp)
      rw [evalExpr, evalExpr, ihc env s1 s2 hn.1.1 hc, iht env s1 s2 hn.1.2 ht,
        ihf env s1 s2 hn.2 hf]
  | mux c t f ihc iht ihf =>
      intro env s1 s2 hn henv
      simp only [Expr.hasNet, Bool.or_eq_false_iff] at hn
      have hc : ∀ p ∈ c.freeVars, (assocLookup env p).isSome = true := fun p hp =>
        henv p (by
          simp only [Expr.freeVars, mem_sortedDedup, List.mem_append]
          exact Or.inl (Or.inl hp))
      have ht : ∀ p ∈ t.freeVars, (assocLookup env p).isSome = true := fun p hp =>
        henv p (by
          simp only [Expr.freeVars, mem_sortedDedup, List.mem_append]
          exact Or.inl (Or.inr hp))
      have hf : ∀ p ∈ f.freeVars, (assocLookup env p).isSome = true := fun p hp =>
        henv p (by
          simp only [Expr.freeVars, mem_sortedDedup, List.mem_append]
          exact Or.inr hp)
      rw [evalExpr, evalExpr, ihc env s1 s2 hn.1.1 hc, iht env s1 s2 hn.1.2 ht,
        ihf env s1 s2 hn.2 hf]
  | idx e i ih =>
      intro env s1 s2 hn henv
      simp only [Expr.hasNet] at hn
      rw [evalExpr, evalExpr, ih env s1 s2 hn (fun p hp => henv p (by simpa [Expr.freeVars] using hp))]
  | hole => intro env s1 s2 _ _; rfl

/-- A constant net-free expression evaluates the same against any
simulator state: its value is `evalClosed`. -/
theorem evalExpr_const_eq (e : Expr) (he : e.isConstant = true) (hn : e.hasNet = false)
    (s : Sim) : evalExpr s [] e = evalClosed e := by
  rw [evalClosed]
  apply evalExpr_state_irrel e [] s _ hn
  intro p hp
  rw [Expr.isConstant] at he
  rw [List.isEmpty_iff.mp he] at hp
  cases hp


/-- Every successful `poke` preserves the simulator's shape (only net
values change). -/
theorem pokeFuel_shape : ∀ (fuel : Nat) (s : Sim) (p : Path) (v : Value) (s2 : Sim),
    pokeFuel fuel s p v = some s2 → SameShape s2 s := by
  intro fuel
  induction fuel with
  | zero => intro s p v s2 h; cases h
  | succ f ih =>
      intro s p v s2 h
      have loop : ∀ (l : List Wire) (st out : Sim),
          foldlMO (fun st w =>
            if w.expr.dependsOn p then
              match evalExpr st [] w.expr with
              | none => none
              | some val => pokeFuel f st (effTarget w.target w.kind) val
            else some st) st l = some out → SameShape out st := by
        intro l
        induction l with
        | nil =>
            intro st out h2
            rw [foldlMO] at h2
            injection h2 with h2
            subst h2
            exact sameShape_refl st
        | cons w ws ihl =>
            intro st out h2
            rw [foldlMO] at h2
            by_cases hd : w.expr.dependsOn p
            · simp only [hd, if_true] at h2
              cases hev : evalExpr st [] w.expr with
              | none => rw [hev] at h2; cases h2
              | some val =>
                  rw [hev] at h2
                  dsimp only at h2
                  cases hp : pokeFuel f st (effTarget w.target w.kind) val with
                  | none => rw [hp] at h2; cases h2
                  | some st2 =>
                      rw [hp] at h2
                      exact SameShape.trans (ihl st2 out h2) (ih st _ val st2 hp)
            · simp only [hd, Bool.false_eq_true, if_false] at h2
              exact ihl st out h2
      rw [pokeFuel] at h
      cases hi : s.netIdByPath p with
      | none => rw [hi] at h; cases h
      | some i =>
          rw [hi] at h
          dsimp only at h
          by_cases hr : (s.pokeRaw i v).isReg p
          · rw [if_pos hr] at h
            injection h with h
            subst h
            exact pokeRaw_shape s i v
          · rw [if_neg hr] at h
            exact SameShape.trans (loop _ _ _ h) (pokeRaw_shape s i v)

/-- `broadcast_update_constants` preserves the simulator's shape. -/
theorem broadcastConstantsGo_shape (fuel : Nat) :
    ∀ (l : List Wire) (st out : Sim),
      broadcastConstantsGo fuel st l = some out → SameShape out st := by
  intro l
  induction l with
  | nil =>
      intro st out h
      rw [broadcastConstantsGo] at h
      injection h with h
      subst h
      exact sameShape_refl st
  | cons w ws ih =>
      intro st out h
      rw [broadcastConstantsGo] at h
      by_cases hc : w.expr.isConstant
      · simp only [hc, if_true, Option.bind_eq_bind] at h
        cases hev : evalExpr st [] w.expr with
        | none => rw [hev] at h; cases h
        | some val =>
            rw [hev] at h
            simp only [Option.some_bind] at h
            cases hp : pokeFuel fuel st (effTarget w.target w.kind) val with
            | none => rw [hp] at h; cases h
            | some st2 =>
                rw [hp] at h
                simp only [Option.some_bind] at h
                exact SameShape.trans (ih st2 out h) (pokeFuel_shape fuel st _ val st2 hp)
      · simp only [hc, Bool.false_eq_true, if_false, Option.bind_eq_bind, Option.some_bind] at h
        exact ih st out h

/-! ## C3: constant propagation at construction -/

theorem c3Fold (fuel : Nat) (base : Sim)
    (Hdeps : ∀ w1 ∈ base.wires, ∀ w2 ∈ base.wires,
      w1.expr.dependsOn (effTarget w2.target w2.kind) = false)
    (Hfuel : 0 < fuel)
    (Hagree : ∀ w1 ∈ base.wires, ∀ w2 ∈ base.wires, w1.expr.isConstant = true →
      w2.expr.isConstant = true →
      base.netIdByPath (effTarget w1.target w1.kind)
        = base.netIdByPath (effTarget w2.target w2.kind) →
      evalClosed w1.expr = evalClosed w2.expr) :
    ∀ (l : List Wire) (s : Sim),
      SameShape s base →
      (∀ w ∈ l, w ∈ base.wires) →
      (∀ w ∈ l, w.expr.hasNet = false) →
      (∀ w ∈ l, w.expr.isConstant = true → (evalClosed w.expr).isSome = true) →
      (∀ w ∈ l, w.expr.isConstant = true →
        (base.netIdByPath (effTarget w.target w.kind)).isSome = true) →
      ∃ out, broadcastConstantsGo fuel s l = some out ∧ SameShape out base ∧
        (∀ j v0, s.values j = v0 →
          (∀ w ∈ l, w.expr.isConstant = true →
            base.netIdByPath (effTarget w.target w.kind) = some j →
            evalClosed w.expr = some v0) →
          out.values j = v0) ∧
        (∀ w ∈ l, w.expr.isConstant = true → ∀ i val,
          base.netIdByPath (effTarget w.target w.kind) = some i →
          evalClosed w.expr = some val → out.values i = val) ∧
        (∀ j, (∀ w ∈ l, w.expr.isConstant = true →
            base.netIdByPath (effTarget w.target w.kind) ≠ some j) →
          out.values j = s.values j) := by
  intro l
  induction l with
  | nil =>
      intro s hsh _ _ _ _
      refine ⟨s, rfl, hsh, ?_, ?_, ?_⟩
      · intro j v0 hj _; exact hj
      · intro w hw; cases hw
      · intro j _; rfl
  | cons w0 rest ih =>
      intro s hsh hsub hnn heval hlook
      have hw0base : w0 ∈ base.wires := hsub w0 (List.mem_cons_self _ _)
      have hsub2 : ∀ w ∈ rest, w ∈ base.wires :=
        fun w hw => hsub w (List.mem_cons_of_mem _ hw)
      have hnn2 : ∀ w ∈ rest, w.expr.hasNet = false :=
        fun w hw => hnn w (List.mem_cons_of_mem _ hw)
      have heval2 : ∀ w ∈ rest, w.expr.isConstant = true → (evalClosed w.expr).isSome = true :=
        fun w hw => heval w (List.mem_cons_of_mem _ hw)
      have hlook2 : ∀ w ∈ rest, w.expr.isConstant = true →
          (base.netIdByPath (effTarget w.target w.kind)).isSome = true :=
        fun w hw => hlook w (List.mem_cons_of_mem _ hw)
      by_cases hc : w0.expr.isConstant = true
      · obtain ⟨val0, hval0⟩ : ∃ val0, evalClosed w0.expr = some val0 := by
          cases hv : evalClosed w0.expr with
          | none =>
              have hsome := heval w0 (List.mem_cons_self _ _) hc
              rw [hv] at hsome
              cases hsome
          | some v => exact ⟨v, rfl⟩
        obtain ⟨i0, hi0⟩ : ∃ i0,
            base.netIdByPath (effTarget w0.target w0.kind) = some i0 := by
          cases hv : base.netIdByPath (effTarget w0.target w0.kind) with
          | none =>
              have hsome := hlook w0 (List.mem_cons_self _ _) hc
              rw [hv] at hsome
              cases hsome
          | some i => exact ⟨i, rfl⟩
        have hev : evalExpr s [] w0.expr = some val0 := by
          rw [evalExpr_const_eq w0.expr hc (hnn w0 (List.mem_cons_self _ _)) s]
          exact hval0
        have hsi0 : s.netIdByPath (effTarget w0.target w0.kind) = some i0 := by
          rw [netIdByPath_congr hsh]
          exact hi0
        have hdeps0 : ∀ w ∈ s.wires,
            w.expr.dependsOn (effTarget w0.target w0.kind) = false := by
          rw [hsh.2.2.1]
          exact fun w hw => Hdeps w hw w0 hw0base
        have hpoke : pokeFuel fuel s (effTarget w0.target w0.kind) val0
            = some (s.pokeRaw i0 val0) :=
          pokeFuel_nodep_eq fuel s _ val0 i0 Hfuel hsi0 hdeps0
        have hstep : broadcastConstantsGo fuel s (w0 :: rest)
            = broadcastConstantsGo fuel (s.pokeRaw i0 val0) rest := by
          rw [broadcastConstantsGo]
          simp only [hc, if_true, hev, Option.bind_eq_bind, Option.some_bind, hpoke]
        have hsh2 : SameShape (s.pokeRaw i0 val0) base :=
          SameShape.trans (pokeRaw_shape s i0 val0) hsh
        obtain ⟨out, hgo, hosh, hpres, happ, hframe⟩ := ih (s.pokeRaw i0 val0) hsh2
          hsub2 hnn2 heval2 hlook2
        refine ⟨out, by rw [hstep]; exact hgo, hosh, ?_, ?_, ?_⟩
        · intro j v0 hj hcond
          by_cases hji : i0 = j
          · subst hji
            have hv0 : evalClosed w0.expr = some v0 :=
              hcond w0 (List.mem_cons_self _ _) hc hi0
            rw [hval0] at hv0
            injection hv0 with hv0
            refine hpres i0 v0 ?_ ?_
            · rw [pokeRaw_values_self, hv0]
            · exact fun w hw hwc hwj => hcond w (List.mem_cons_of_mem _ hw) hwc hwj
          · refine hpres j v0 ?_ ?_
            · rw [pokeRaw_values_other s i0 j val0 (fun h => hji h.symm)]
              exact hj
            · exact fun w hw hwc hwj => hcond w (List.mem_cons_of_mem _ hw) hwc hwj
        · intro w hw hwc i val hbase hval
          rcases List.mem_cons.mp hw with heq | hw2
          · subst heq
            rw [hi0] at hbase
            injection hbase with hbase
            rw [hval0] at hval
            injection hval with hval
            refine hpres i val ?_ ?_
            · rw [← hbase, ← hval]
              exact pokeRaw_values_self s i0 val0
            · intro w2 hw2 hw2c hw2j
              have hag := Hagree w2 (hsub2 w2 hw2) w (hsub w (List.mem_cons_self _ _))
                hw2c hwc (by rw [hw2j, hi0, hbase])
              rw [hag, hval0, hval]
          · exact happ w hw2 hwc i val hbase hval
        · intro j hno
          have hi0j : i0 ≠ j := by
            intro heq
            refine hno w0 (List.mem_cons_self _ _) hc ?_
            rw [hi0, heq]
          rw [hframe j (fun w hw hwc => hno w (List.mem_cons_of_mem _ hw) hwc),
            pokeRaw_values_other s i0 j val0 (fun h => hi0j h.symm)]
      · have hstep : broadcastConstantsGo fuel s (w0 :: rest)
            = broadcastConstantsGo fuel s rest := by
          rw [broadcastConstantsGo]
          simp only [hc, Bool.false_eq_true, if_false, Option.bind_eq_bind, Option.pure_def,
            Option.some_bind]
        obtain ⟨out, hgo, hosh, hpres, happ, hframe⟩ := ih s hsh hsub2 hnn2 heval2 hlook2
        refine ⟨out, by rw [hstep]; exact hgo, hosh, ?_, ?_, ?_⟩
        · intro j v0 hj hcond
          exact hpres j v0 hj
            (fun w hw hwc hwj => hcond w (List.mem_cons_of_mem _ hw) hwc hwj)
        · intro w hw hwc i val hbase hval
          rcases List.mem_cons.mp hw with heq | hw2
          · subst heq; exact absurd hwc hc
          · exact happ w hw2 hwc i val hbase hval
        · intro j hno
          exact hframe j (fun w hw hwc => hno w (List.mem_cons_of_mem _ hw) hwc)

/-- C3 (amended): immediately after `Sim::new(circuit)` returns, every
wire whose expression is constant (no free references) has been applied:
the value at the wire's effective target equals the closed evaluation of
its expression. But the remaining nets need NOT hold `X` in general,
because each constant poke triggers a cascading `broadcast_update` of
every dependent wire; they are guaranteed to hold `X` only when no wire
expression depends on any wire target (no combinational cascade), which
is the hypothesis `hdeps` below. The side conditions: wire expressions
contain no pre-rewritten `Net` nodes (`hnn`), constant wires evaluate
successfully (`heval`) and target a real net (`hlook`), and constant
wires driving the same net agree on their value (`hagree`, since the
later poke wins in wire order). -/
theorem c3_amended_constant_propagation (fuel : Nat) (c : Circuit) (s : Sim)
    (hfuel : 0 < fuel)
    (hs : simNewFuel fuel c = some s)
    (hnn : ∀ w ∈ c.wires, w.expr.hasNet = false)
    (hdeps : ∀ w1 ∈ c.wires, ∀ w2 ∈ c.wires,
      w1.expr.dependsOn (effTarget w2.target w2.kind) = false)
    (heval : ∀ w ∈ c.wires, w.expr.isConstant = true → (evalClosed w.expr).isSome = true)
    (hlook : ∀ w ∈ c.wires, w.expr.isConstant = true →
      (s.netIdByPath (effTarget w.target w.kind)).isSome = true)
    (hagree : ∀ w1 ∈ c.wires, ∀ w2 ∈ c.wires, w1.expr.isConstant = true →
      w2.expr.isConstant = true →
      s.netIdByPath (effTarget w1.target w1.kind)
        = s.netIdByPath (effTarget w2.target w2.kind) →
      evalClosed w1.expr = evalClosed w2.expr) :
    (∀ w ∈ c.wires, w.expr.isConstant = true →
      s.peek (effTarget w.target w.kind) = evalClosed w.expr) ∧
    (∀ j, (∀ w ∈ c.wires, w.expr.isConstant = true →
        s.netIdByPath (effTarget w.target w.kind) ≠ some j) →
      s.values j = .X) := by
  rw [simNewFuel] at hs
  cases hn : netsFuel fuel c with
  | none => rw [hn] at hs; cases hs
  | some ns =>
      rw [hn] at hs
      dsimp only at hs
      set base : Sim := ⟨ns, c.terminals, fun _ => Value.X, c.wires, c.regs⟩ with hbasedef
      have hshape : SameShape s base := broadcastConstantsGo_shape fuel c.wires base s hs
      have hnid : s.netIdByPath = base.netIdByPath := netIdByPath_congr hshape
      have hagreeB : ∀ w1 ∈ base.wires, ∀ w2 ∈ base.wires, w1.expr.isConstant = true →
          w2.expr.isConstant = true →
          base.netIdByPath (effTarget w1.target w1.kind)
            = base.netIdByPath (effTarget w2.target w2.kind) →
          evalClosed w1.expr = evalClosed w2.expr := by
        intro w1 h1 w2 h2 hc1 hc2 heq
        refine hagree w1 h1 w2 h2 hc1 hc2 ?_
        rw [hnid]
        exact heq
      have hlookB : ∀ w ∈ base.wires, w.expr.isConstant = true →
          (base.netIdByPath (effTarget w.target w.kind)).isSome = true := by
        intro w hw hwc
        rw [← hnid]
        exact hlook w hw hwc
      obtain ⟨out, hgo, hosh, hpres, happ, hframe⟩ :=
        c3Fold fuel base hdeps hfuel hagreeB c.wires base (sameShape_refl base)
          (fun w hw => hw) hnn heval hlookB
      rw [hs] at hgo
      injection hgo with hgo
      constructor
      · intro w hw hwc
        obtain ⟨i, hi⟩ : ∃ i, s.netIdByPath (effTarget w.target w.kind) = some i := by
          cases hv : s.netIdByPath (effTarget w.target w.kind) with
          | none =>
              have hsome := hlook w hw hwc
              rw [hv] at hsome
              cases hsome
          | some i => exact ⟨i, rfl⟩
        obtain ⟨val, hval⟩ : ∃ val, evalClosed w.expr = some val := by
          cases hv : evalClosed w.expr with
          | none =>
              have hsome := heval w hw hwc
              rw [hv] at hsome
              cases hsome
          | some v => exact ⟨v, rfl⟩
        have hvi : out.values i = val := by
          refine happ w hw hwc i val ?_ hval
          rw [← hnid]
          exact hi
        rw [Sim.peek, hi, Option.map_some', hgo, hvi, hval]
      · intro j hno
        have hfr := hframe j (by
          intro w hw hwc hj
          refine hno w hw hwc ?_
          rw [hnid]
          exact hj)
        rw [hgo, hfr]

/-- C3 witness: for the one-constant-wire circuit `a := 5w4` with a
second untouched terminal `top.b`, `Sim::new` yields `c3wSimOut`;
`peek(top.a)` is `5w4` (the constant has been applied) and net 1
(`top.b`) holds `X`. Both follow from `c3_amended_constant_propagation`
at this concrete input. -/
theorem c3_witness :
    c3wSimOut.peek ["top", "a"] = some (Value.word 5 4) ∧ c3wSimOut.values 1 = Value.X := by
  have h := c3_amended_constant_propagation 2 c3wCircuit c3wSimOut (by decide) rfl
    (by decide) (by decide) (by decide) (by decide) (by decide)
  constructor
  · have ha := h.1 ⟨["top", "a"], .word (some 4) 5, .connect⟩ (by decide) (by decide)
    exact ha.trans (by decide)
  · exact h.2 1 (by decide)

/-- C3 counterexample (against "all other nets hold X"): in
`c3cexCircuit` (`a := 5w4`; `b := a + 1w4`), the only constant wire
targets `top.a`, yet right after `Sim::new` the net of `top.b` holds
`6w4`, not `X`: the poke of the constant into `a` broadcast-updates the
dependent wire `b`. -/
theorem c3_counterexample :
    ((simNewFuel 8 c3cexCircuit).bind fun s => s.peek ["top", "b"]) = some (Value.word 6 4) ∧
    (∀ w ∈ c3cexCircuit.wires, effTarget w.target w.kind = ["top", "b"] →
      w.expr.isConstant = false) ∧
    Value.word 6 4 ≠ Value.X :=
  ⟨rfl, by decide, by decide⟩

/-- The final `broadcast_update` phase of `clock` is the identity when no
wire's expression depends on any of the register paths. -/
theorem clockRegsBroadcast_noop (fuel : Nat) :
    ∀ (l : List Path) (st : Sim),
      (∀ w ∈ st.wires, ∀ p ∈ l, w.expr.dependsOn p = false) →
      clockRegsBroadcast fuel st l = some st := by
  intro l
  induction l with
  | nil => intro st _; rfl
  | cons p rest ih =>
      intro st h
      rw [clockRegsBroadcast]
      have hb : broadcastFuel fuel st p = some st :=
        broadcastFuel_noop fuel st p (fun w hw => h w hw p (List.mem_cons_self _ _))
      simp only [hb, Option.bind_eq_bind, Option.some_bind]
      exact ih st (fun w hw q hq => h w hw q (List.mem_cons_of_mem _ hq))

/-- Running the register phase of `clock` over register paths whose nets
all differ from `ir` succeeds, preserves the shape, and leaves the value
at net `ir` unchanged. -/
theorem clockRegsStep_runB (fuel : Nat) (s : Sim) (ir : Nat) (v : Value)
    (hfuel : 0 < fuel) :
    ∀ (l : List Path) (st : Sim), SameShape st s →
      (∀ p ∈ l, p ∈ s.regs) →
      (∀ p ∈ l, ∃ isp ip, s.netIdByPath p.pset = some isp ∧
        s.netIdByPath p = some ip ∧ ip ≠ ir) →
      st.values ir = v →
      ∃ out, clockRegsStep fuel st l = some out ∧ SameShape out s ∧ out.values ir = v := by
  intro l
  induction l with
  | nil => intro st hsh _ _ hv; exact ⟨st, rfl, hsh, hv⟩
  | cons p rest ih =>
      intro st hsh hmem hlook hv
      obtain ⟨isp, ip, hisp, hip, hne⟩ := hlook p (List.mem_cons_self _ _)
      have hnid : st.netIdByPath = s.netIdByPath := netIdByPath_congr hsh
      have hpeek : st.peek p.pset = some (st.values isp) := by
        rw [Sim.peek, hnid, hisp, Option.map_some']
      have hregst : p ∈ st.regs := by
        rw [hsh.2.2.2]
        exact hmem p (List.mem_cons_self _ _)
      have hisreg : (st.pokeRaw ip (st.values isp)).isReg p = true :=
        isReg_of_mem_regs hregst
      have hpoke : pokeFuel fuel st p (st.values isp)
          = some (st.pokeRaw ip (st.values isp)) :=
        pokeFuel_isReg_eq fuel st p _ ip hfuel (by rw [hnid]; exact hip) hisreg
      have hstep : clockRegsStep fuel st (p :: rest)
          = clockRegsStep fuel (st.pokeRaw ip (st.values isp)) rest := by
        rw [clockRegsStep]
        simp only [hpeek, Option.bind_eq_bind, Option.some_bind, hpoke]
      obtain ⟨out, hgo, hosh, hov⟩ := ih (st.pokeRaw ip (st.values isp))
        (SameShape.trans (pokeRaw_shape st ip _) hsh)
        (fun q hq => hmem q (List.mem_cons_of_mem _ hq))
        (fun q hq => hlook q (List.mem_cons_of_mem _ hq))
        (by rw [pokeRaw_values_other st ip ir _ (Ne.symm hne)]; exact hv)
      exact ⟨out, by rw [hstep]; exact hgo, hosh, hov⟩

/-- Running the register phase of `clock` over a duplicate-free register
list containing `r`, starting from a state holding `v` at `r.set()`'s net
`iset`: provided no other register's net collides with `iset` or with
`r`'s net `ir`, the phase succeeds and ends with `v` at net `ir`. -/
theorem clockRegsStep_runA (fuel : Nat) (s : Sim) (r : Path) (v : Value) (iset ir : Nat)
    (hfuel : 0 < fuel)
    (hiset : s.netIdByPath r.pset = some iset)
    (hir : s.netIdByPath r = some ir) :
    ∀ (l : List Path) (st : Sim), SameShape st s →
      l.Nodup →
      (∀ p ∈ l, p ∈ s.regs) →
      (∀ p ∈ l, ∃ isp ip, s.netIdByPath p.pset = some isp ∧
        s.netIdByPath p = some ip ∧ ip ≠ iset ∧ (p ≠ r → ip ≠ ir)) →
      st.values iset = v →
      r ∈ l →
      ∃ out, clockRegsStep fuel st l = some out ∧ SameShape out s ∧ out.values ir = v := by
  intro l
  induction l with
  | nil => intro st _ _ _ _ _ hrl; cases hrl
  | cons p rest ih =>
      intro st hsh hnd hmem hlook hv hrl
      rw [List.nodup_cons] at hnd
      obtain ⟨isp, ip, hisp, hip, hneset, hner⟩ := hlook p (List.mem_cons_self _ _)
      have hnid : st.netIdByPath = s.netIdByPath := netIdByPath_congr hsh
      have hpeek : st.peek p.pset = some (st.values isp) := by
        rw [Sim.peek, hnid, hisp, Option.map_some']
      have hregst : p ∈ st.regs := by
        rw [hsh.2.2.2]
        exact hmem p (List.mem_cons_self _ _)
      have hisreg : (st.pokeRaw ip (st.values isp)).isReg p = true :=
        isReg_of_mem_regs hregst
      have hpoke : pokeFuel fuel st p (st.values isp)
          = some (st.pokeRaw ip (st.values isp)) :=
        pokeFuel_isReg_eq fuel st p _ ip hfuel (by rw [hnid]; exact hip) hisreg
      have hstep : clockRegsStep fuel st (p :: rest)
          = clockRegsStep fuel (st.pokeRaw ip (st.values isp)) rest := by
        rw [clockRegsStep]
        simp only [hpeek, Option.bind_eq_bind, Option.some_bind, hpoke]
      by_cases hpr : p = r
      · subst hpr
        rw [hiset] at hisp
        injection hisp with h1
        rw [hir] at hip
        injection hip with h2
        obtain ⟨out, hgo, hosh, hov⟩ :=
          clockRegsStep_runB fuel s ir v hfuel rest (st.pokeRaw ip (st.values isp))
            (SameShape.trans (pokeRaw_shape st ip _) hsh)
            (fun q hq => hmem q (List.mem_cons_of_mem _ hq))
            (by
              intro q hq
              obtain ⟨isq, iq, hq1, hq2, _, hq4⟩ := hlook q (List.mem_cons_of_mem _ hq)
              exact ⟨isq, iq, hq1, hq2, hq4 (ne_of_mem_of_not_mem hq hnd.1)⟩)
            (by rw [h2, pokeRaw_values_self, ← h1]; exact hv)
        exact ⟨out, by rw [hstep]; exact hgo, hosh, hov⟩
      · have hrrest : r ∈ rest := by
          rcases List.mem_cons.mp hrl with heq | hmem2
          · exact absurd heq.symm hpr
          · exact hmem2
        obtain ⟨out, hgo, hosh, hov⟩ := ih (st.pokeRaw ip (st.values isp))
          (SameShape.trans (pokeRaw_shape st ip _) hsh)
          hnd.2
          (fun q hq => hmem q (List.mem_cons_of_mem _ hq))
          (fun q hq => hlook q (List.mem_cons_of_mem _ hq))
          (by rw [pokeRaw_values_other st ip iset _ (Ne.symm hneset)]; exact hv)
          hrrest
        exact ⟨out, by rw [hstep]; exact hgo, hosh, hov⟩

/-! ## C1: register write-then-clock semantics -/

/-- C1 (amended): `poke(r.set(), v); clock(); peek(r) == v` does NOT hold
for every register `r` — `clock` walks the registers in `BTreeSet` order
reading each `peek(p.set())` against the already-updated state, so a
register whose `.set()` terminal shares a net with another register's
value net gets clobbered (see `c1_counterexample`). It holds whenever the
register nets are disjoint: no register's value net equals `iset`
(`r.set()`'s net) and no other register's value net equals `ir` (`r`'s
net), the register list is duplicate-free, every register's terminals
resolve to nets, and no wire expression depends on a register path (so
the final broadcast phase of `clock` is the identity). -/
theorem c1_amended_register_write (fuel : Nat) (s : Sim) (r : Path) (v : Value)
    (iset ir : Nat)
    (hfuel : 0 < fuel)
    (hr : r ∈ s.regs)
    (hiset : s.netIdByPath r.pset = some iset)
    (hir : s.netIdByPath r = some ir)
    (hnd : s.regs.Nodup)
    (hregs : ∀ p ∈ s.regs, ∃ isp ip, s.netIdByPath p.pset = some isp ∧
      s.netIdByPath p = some ip ∧ ip ≠ iset ∧ (p ≠ r → ip ≠ ir))
    (hwires : ∀ w ∈ s.wires, ∀ p ∈ s.regs, w.expr.dependsOn p = false) :
    (((pokeFuel fuel s r.pset v).bind fun s1 => clockFuel fuel s1).bind
      fun s2 => s2.peek r) = some v := by
  have hisreg1 : (s.pokeRaw iset v).isReg r.pset = true :=
    isReg_of_parent_mem_regs (by rw [pset_parent]; exact hr)
  have hpoke : pokeFuel fuel s r.pset v = some (s.pokeRaw iset v) :=
    pokeFuel_isReg_eq fuel s r.pset v iset hfuel hiset hisreg1
  obtain ⟨out, hgo, hosh, hov⟩ :=
    clockRegsStep_runA fuel s r v iset ir hfuel hiset hir s.regs (s.pokeRaw iset v)
      (pokeRaw_shape s iset v) hnd (fun p hp => hp) hregs
      (pokeRaw_values_self s iset v) hr
  have hbr : clockRegsBroadcast fuel out out.regs = some out := by
    apply clockRegsBroadcast_noop
    intro w hw p hp
    rw [hosh.2.2.1] at hw
    rw [hosh.2.2.2] at hp
    exact hwires w hw p hp
  have hclock : clockFuel fuel (s.pokeRaw iset v) = some out := by
    rw [clockFuel, show (s.pokeRaw iset v).regs = s.regs from rfl, hgo]
    dsimp only
    exact hbr
  have hpeek2 : out.peek r = some v := by
    rw [Sim.peek, netIdByPath_congr hosh, hir, Option.map_some', hov]
  rw [hpoke]
  simp only [Option.some_bind]
  rw [hclock]
  simp only [Option.some_bind]
  exact hpeek2

/-- C1 witness: the amended theorem applied to the one-register simulator
`c1wSim` (`top.r` on net 0, `top.r.set` on net 1, no wires): poking
`1w1` into `top.r.set` and clocking makes `peek(top.r)` return `1w1`. -/
theorem c1_witness :
    (((pokeFuel 1 c1wSim (Path.pset ["top", "r"]) (Value.word 1 1)).bind
      fun s1 => clockFuel 1 s1).bind
      fun s2 => s2.peek ["top", "r"]) = some (Value.word 1 1) :=
  c1_amended_register_write 1 c1wSim ["top", "r"] (Value.word 1 1) 1 0
    (by decide) (by decide) rfl rfl (by decide)
    (by
      intro p hp
      rw [show c1wSim.regs = [["top", "r"]] from rfl, List.mem_singleton] at hp
      subst hp
      exact ⟨1, 0, rfl, rfl, by decide, fun h => absurd rfl h⟩)
    (by intro w hw; cases hw)

/-- C1 counterexample: in `c1cexCircuit` (registers `top.a`, `top.b`
with the latched chain `b <= a`, so `top.b.set` shares net 0 with
`top.a`), `poke(top.b.set(), 1w1); clock()` leaves `peek(top.b) = X`,
not `1w1`: `clock` first processes `top.a`, poking `peek(top.a.set) = X`
into net 0 and clobbering the pending `1w1` before `top.b` reads it. -/
theorem c1_counterexample :
    ["top", "b"] ∈ c1cexCircuit.regs ∧
    ((((simNewFuel 8 c1cexCircuit).bind fun s =>
        pokeFuel 8 s (Path.pset ["top", "b"]) (Value.word 1 1)).bind fun s1 =>
        clockFuel 8 s1).bind fun s2 => s2.peek ["top", "b"]) = some Value.X ∧
    Value.X ≠ Value.word 1 1 :=
  ⟨by decide, rfl, by decide⟩

end Bitsy
